import Mathlib

/-!
Verification of the core subsystems of the `cmpm121-final` adventure/puzzle
game: the grid-based A* pathfinder of `src/scenes/RoomScene.ts`, the action
log of `src/systems/UndoSystem.ts`, the scene-transition wiring of
`src/game/SceneManager.ts` and `src/game/Game.ts`, and the save-record wire
format of `src/systems/SaveSystem.ts`.

World coordinates (JS numbers) are embedded as exact rationals; all the
arithmetic the code performs on them (addition, division by the cell size,
`Math.floor`) is exact on the inputs in scope, so `ℚ` with `Int.floor` is a
faithful model.  The A* search loop is given explicit fuel
`gridWidth * gridDepth + 1`; the development proves that the fuel is never
exhausted (each iteration permanently closes one more in-bounds grid cell),
so the fuelled function agrees with the source's unbounded `while` loop.
-/

namespace Cmpm121

/-- A world-space position (`THREE.Vector3`), with exact coordinates. -/
structure Vec3 where
  x : ℚ
  y : ℚ
  z : ℚ
deriving DecidableEq

/-- A grid cell address `(column, row)`; the source indexes `grid[x][z]`. -/
abbrev Cell := ℤ × ℤ

/-- `RoomScene.gridSize = 0.5`. -/
def gridSize : ℚ := 1/2

/-- `RoomScene.gridWidth = 60`. -/
def gridWidth : ℤ := 60

/-- `RoomScene.gridDepth = 60`. -/
def gridDepth : ℤ := 60

/-- `RoomScene.gridOffsetX = 15`. -/
def gridOffsetX : ℚ := 15

/-- `RoomScene.gridOffsetZ = 15`. -/
def gridOffsetZ : ℚ := 15

/-- The walkability map `RoomScene.grid : boolean[][]`, as a function on
cell addresses. -/
def Grid := Cell → Bool

/-- `RoomScene.initializeGrid`: every cell starts blocked. -/
def initializeGrid : Grid := fun _ => false

/-- `RoomScene.setWalkableArea(x, z, width, depth)`: marks the integer cell
range obtained by floor division as walkable, skipping out-of-bounds
indices.  The double `for` loop writing `grid[i][j] = true` is rendered
pointwise. -/
def setWalkableArea (g : Grid) (x z width depth : ℚ) : Grid :=
  let startX : ℤ := ⌊(x - width / 2 + gridOffsetX) / gridSize⌋
  let endX : ℤ := ⌊(x + width / 2 + gridOffsetX) / gridSize⌋
  let startZ : ℤ := ⌊(z - depth / 2 + gridOffsetZ) / gridSize⌋
  let endZ : ℤ := ⌊(z + depth / 2 + gridOffsetZ) / gridSize⌋
  fun c =>
    if startX ≤ c.1 ∧ c.1 < endX ∧ startZ ≤ c.2 ∧ c.2 < endZ ∧
        0 ≤ c.1 ∧ c.1 < gridWidth ∧ 0 ≤ c.2 ∧ c.2 < gridDepth then
      true
    else g c

/-- One room rectangle of `RoomScene.setupRooms` (center, width, depth). -/
structure Room where
  x : ℚ
  z : ℚ
  width : ℚ
  depth : ℚ

/-- The nine rooms of `RoomScene.setupRooms` (roomSize 6, spacing 10). -/
def rooms : List Room :=
  [⟨-10, -10, 6, 6⟩, ⟨0, -10, 6, 6⟩, ⟨10, -10, 6, 6⟩,
   ⟨-10, 0, 6, 6⟩, ⟨0, 0, 6, 6⟩, ⟨10, 0, 6, 6⟩,
   ⟨-10, 10, 6, 6⟩, ⟨0, 10, 6, 6⟩, ⟨10, 10, 6, 6⟩]

/-- The corridor rectangles carved by `RoomScene.setupRooms`
(`createCorridor` calls, in source order: horizontal then vertical). -/
def corridors : List Room :=
  [⟨-5, -10, 4, 2⟩, ⟨5, -10, 4, 2⟩, ⟨-5, 0, 4, 2⟩, ⟨5, 0, 4, 2⟩,
   ⟨-5, 10, 4, 2⟩, ⟨5, 10, 4, 2⟩,
   ⟨-10, -5, 2, 4⟩, ⟨-10, 5, 2, 4⟩, ⟨0, -5, 2, 4⟩, ⟨0, 5, 2, 4⟩,
   ⟨10, -5, 2, 4⟩, ⟨10, 5, 2, 4⟩]

/-- The concrete walkability grid built by `RoomScene`'s constructor:
`initializeGrid` followed by the `setWalkableArea` calls of `setupRooms`. -/
def roomGrid : Grid :=
  (rooms ++ corridors).foldl
    (fun g r => setWalkableArea g r.x r.z r.width r.depth) initializeGrid

/-- A three-cell corridor grid used to exercise `findPath` on concrete
inputs. -/
def gridT : Grid := fun c => decide (c = (1, 1) ∨ c = (2, 1) ∨ c = (3, 1))

/-- A single-walkable-cell grid whose neighbor `(1, 1)` is blocked, used to
exercise `findPath` from an unwalkable start cell. -/
def gridU : Grid := fun c => decide (c = (2, 1))

/-- The search node of `RoomScene.findPath` (`GridNode`): cell address,
`g`/`h`/`f` costs and the parent link used for path reconstruction. -/
inductive PathNode where
  | mk (x z : ℤ) (g h f : ℕ) (parent : Option PathNode)

instance : Inhabited PathNode := ⟨.mk 0 0 0 0 0 none⟩

def PathNode.xval : PathNode → ℤ
  | .mk x _ _ _ _ _ => x

def PathNode.zval : PathNode → ℤ
  | .mk _ z _ _ _ _ => z

def PathNode.gval : PathNode → ℕ
  | .mk _ _ g _ _ _ => g

def PathNode.hval : PathNode → ℕ
  | .mk _ _ _ h _ _ => h

def PathNode.fval : PathNode → ℕ
  | .mk _ _ _ _ f _ => f

def PathNode.parent : PathNode → Option PathNode
  | .mk _ _ _ _ _ p => p

/-- The grid cell a search node addresses. -/
def cellOf (n : PathNode) : Cell := (n.xval, n.zval)

/-- World-to-grid column conversion used by `findPath`:
`Math.floor((p.x + gridOffsetX) / gridSize)`. -/
def worldCellX (p : Vec3) : ℤ := ⌊(p.x + gridOffsetX) / gridSize⌋

/-- World-to-grid row conversion used by `findPath`:
`Math.floor((p.z + gridOffsetZ) / gridSize)`. -/
def worldCellZ (p : Vec3) : ℤ := ⌊(p.z + gridOffsetZ) / gridSize⌋

/-- The grid cell a world position maps to. -/
def worldCell (p : Vec3) : Cell := (worldCellX p, worldCellZ p)

/-- Grid-to-world conversion used during path reconstruction: the cell's
center, at the fixed rest height `y = 0.4`. -/
def cellToWorld (c : Cell) : Vec3 :=
  ⟨(c.1 : ℚ) * gridSize - gridOffsetX + gridSize / 2, 2/5,
   (c.2 : ℚ) * gridSize - gridOffsetZ + gridSize / 2⟩

/-- A cell address is inside the `gridWidth × gridDepth` arrays. -/
def inBounds (c : Cell) : Prop :=
  0 ≤ c.1 ∧ c.1 < gridWidth ∧ 0 ≤ c.2 ∧ c.2 < gridDepth

instance (c : Cell) : Decidable (inBounds c) := by
  unfold inBounds; infer_instance

/-- A cell whose stored walkability flag would be reported `true`
(in bounds, flag set), matching the spec's `isWalkable` query. -/
def walkableCell (gr : Grid) (c : Cell) : Prop := inBounds c ∧ gr c = true

instance (gr : Grid) (c : Cell) : Decidable (walkableCell gr c) := by
  unfold walkableCell; infer_instance

/-- The index scan of `findPath`'s main loop, carrying the list suffix
that starts at index `i`: with current best index `bi` (whose `f`-cost is
`bf`), return the index of the first node with minimal `f`-cost (the
strict `<` comparison keeps the earlier index on ties). -/
def lowestScan : List PathNode → ℕ → ℕ → ℕ → ℕ
  | [], _, bi, _ => bi
  | n :: rest, i, bi, bf =>
      if n.fval < bf then lowestScan rest (i + 1) i n.fval
      else lowestScan rest (i + 1) bi bf

/-- `lowestIndex` of `findPath`: index 0 to start, then scan from index 1. -/
def lowestIndex : List PathNode → ℕ
  | [] => 0
  | n :: rest => lowestScan rest 1 0 n.fval

/-- Path reconstruction of `findPath`: walk the parent links pushing each
cell's center world position; the caller reverses the result. -/
def collect : PathNode → List Vec3
  | .mk x z _ _ _ none => [cellToWorld (x, z)]
  | .mk x z _ _ _ (some p) => cellToWorld (x, z) :: collect p

/-- The 4-directional neighbor offsets of `findPath`, in source order. -/
def neighborOffsets : List (ℤ × ℤ) := [(0, -1), (0, 1), (-1, 0), (1, 0)]

/-- The open-list search predicate `n.x === neighborX && n.z === neighborZ`. -/
def isCellNode (nx nz : ℤ) (n : PathNode) : Bool :=
  decide (n.xval = nx ∧ n.zval = nz)

/-- In-place mutation of the node `openList.find(...)` returned: replace the
first matching list entry. -/
def replaceFirst (p : PathNode → Bool) (v : PathNode) : List PathNode → List PathNode
  | [] => []
  | a :: rest => if p a then v :: rest else a :: replaceFirst p v rest

/-- One iteration of the neighbor loop of `findPath`: bounds / walkability /
closed-list checks, then either push a fresh node or decrease the `g`-cost
of the open node already holding that cell. -/
def processNeighbor (gr : Grid) (closed : Finset Cell) (endX endZ : ℤ)
    (current : PathNode) (ol : List PathNode) (off : ℤ × ℤ) : List PathNode :=
  let neighborX := current.xval + off.1
  let neighborZ := current.zval + off.2
  if 0 ≤ neighborX ∧ neighborX < gridWidth ∧ 0 ≤ neighborZ ∧ neighborZ < gridDepth ∧
      gr (neighborX, neighborZ) = true ∧ (neighborX, neighborZ) ∉ closed then
    let gScore := current.gval + 1
    match ol.find? (isCellNode neighborX neighborZ) with
    | none =>
        let hv := (neighborX - endX).natAbs + (neighborZ - endZ).natAbs
        ol ++ [.mk neighborX neighborZ gScore hv (gScore + hv) (some current)]
    | some nb =>
        if gScore < nb.gval then
          replaceFirst (isCellNode neighborX neighborZ)
            (.mk neighborX neighborZ gScore nb.hval (gScore + nb.hval) (some current)) ol
        else ol
  else ol

/-- The `while (openList.length > 0)` loop of `findPath`.  `fuel` is a
modelling artifact: it is always called with more fuel than the loop can
consume (each iteration inserts a fresh in-bounds cell into the closed
set), which the development proves below. -/
def astarLoop (gr : Grid) (endX endZ : ℤ) :
    ℕ → List PathNode → Finset Cell → List Vec3
  | 0, _, _ => []
  | _ + 1, [], _ => []
  | fuel + 1, n0 :: rest, closed =>
      let ol := n0 :: rest
      let li := lowestIndex ol
      let current := ol.getD li default
      if current.xval = endX ∧ current.zval = endZ then
        (collect current).reverse
      else
        let ol1 := ol.eraseIdx li
        let closed1 := insert (cellOf current) closed
        let ol2 := neighborOffsets.foldl (processNeighbor gr closed1 endX endZ current) ol1
        astarLoop gr endX endZ fuel ol2 closed1

/-- `RoomScene.findPath(start, end)`: convert both endpoints to grid cells,
reject out-of-bounds endpoints and a blocked goal cell, then run A*. -/
def findPath (gr : Grid) (start e : Vec3) : List Vec3 :=
  let startX := worldCellX start
  let startZ := worldCellZ start
  let endX := worldCellX e
  let endZ := worldCellZ e
  if startX < 0 ∨ startX ≥ gridWidth ∨ startZ < 0 ∨ startZ ≥ gridDepth then []
  else if endX < 0 ∨ endX ≥ gridWidth ∨ endZ < 0 ∨ endZ ≥ gridDepth then []
  else if gr (endX, endZ) = false then []
  else
    astarLoop gr endX endZ (60 * 60 + 1) [.mk startX startZ 0 0 0 none] ∅

/-- The click-to-move handler of `RoomScene.setupClickHandler`: compute a
path from the player's position to the clicked point and install it as the
new waypoint queue only when it is non-empty. -/
def handleMoveClick (gr : Grid) (playerPos point : Vec3)
    (playerPath : List Vec3) : List Vec3 :=
  let path := findPath gr playerPos point
  if path.length > 0 then path else playerPath

/-! ## Grid-graph notions used to specify `findPath`

The search graph of `findPath`: a move goes from any cell to a
4-adjacent in-bounds cell whose walkability flag is set (the source checks
walkability of the move's target only, so the start cell of a search may
be any cell). -/

/-- 4-directional adjacency of grid cells. -/
def adj4 (u v : Cell) : Prop :=
  (v.1 - u.1).natAbs + (v.2 - u.2).natAbs = 1

instance (u v : Cell) : Decidable (adj4 u v) := by
  unfold adj4; infer_instance

/-- One admissible search move: into an in-bounds, walkable, 4-adjacent
cell. -/
def stepTo (gr : Grid) (u v : Cell) : Prop :=
  inBounds v ∧ gr v = true ∧ adj4 u v

instance (gr : Grid) (u v : Cell) : Decidable (stepTo gr u v) := by
  unfold stepTo; infer_instance

/-- A valid grid path from `s` to `t`: a non-empty cell sequence starting
at `s`, ending at `t`, each consecutive pair an admissible move. -/
def ValidPath (gr : Grid) (s t : Cell) (p : List Cell) : Prop :=
  p.head? = some s ∧ p.getLast? = some t ∧ List.Chain' (stepTo gr) p

instance (gr : Grid) (s t : Cell) (p : List Cell) : Decidable (ValidPath gr s t p) := by
  unfold ValidPath; infer_instance

/-- `t` is reachable from `s` in exactly `n` moves. -/
def ReachN (gr : Grid) (s t : Cell) (n : ℕ) : Prop :=
  ∃ p, ValidPath gr s t p ∧ p.length = n + 1

/-- `t` is grid-connected to `s`. -/
def Reach (gr : Grid) (s t : Cell) : Prop :=
  ∃ p, ValidPath gr s t p

/-- `d` is the exact least move count from `s` to `t`. -/
def IsDist (gr : Grid) (s t : Cell) (d : ℕ) : Prop :=
  ReachN gr s t d ∧ ∀ m, ReachN gr s t m → d ≤ m

/-- `k` is the cell count of a true shortest 4-directional path from `s`
to `t` on the grid. -/
def IsShortestPathLen (gr : Grid) (s t : Cell) (k : ℕ) : Prop :=
  (∃ p, ValidPath gr s t p ∧ p.length = k) ∧
  ∀ p, ValidPath gr s t p → k ≤ p.length

/-- Manhattan distance between cells (the heuristic of `findPath`). -/
def manhattan (u v : Cell) : ℕ :=
  (u.1 - v.1).natAbs + (u.2 - v.2).natAbs

/-- The cell sequence a search node's parent chain spells out, root
first — exactly what `findPath`'s reconstruction loop reads off. -/
def trace : PathNode → List Cell
  | .mk x z _ _ _ none => [(x, z)]
  | .mk x z _ _ _ (some p) => trace p ++ [(x, z)]

/-- Well-formedness of a search node rooted at start cell `s` with goal
`t`: the source creates the root with `g = h = f = 0`, and every other
node from its parent by an admissible move, with `g` incremented,
Manhattan `h`, and `f = g + h`. -/
def NodeInv (gr : Grid) (s t : Cell) : PathNode → Prop
  | .mk x z g h f none => (x, z) = s ∧ g = 0 ∧ h = 0 ∧ f = 0
  | .mk x z g h f (some p) =>
      NodeInv gr s t p ∧ stepTo gr (cellOf p) (x, z) ∧ g = p.gval + 1 ∧
      h = manhattan (x, z) t ∧ f = g + h

/-- The finite set of in-bounds cells. -/
def boundedCells : Finset Cell :=
  Finset.Ico 0 gridWidth ×ˢ Finset.Ico 0 gridDepth

/-- Local well-formedness of the open list during one neighbor expansion:
all nodes well-formed, open cells pairwise distinct, none closed, all in
bounds. -/
def OpenInv (gr : Grid) (s t : Cell) (closed : Finset Cell)
    (ol : List PathNode) : Prop :=
  (∀ n ∈ ol, NodeInv gr s t n) ∧ (ol.map cellOf).Nodup ∧
    (∀ n ∈ ol, cellOf n ∉ closed) ∧ ∀ n ∈ ol, cellOf n ∈ boundedCells

/-- The invariant of `findPath`'s search loop, for start cell `s` and goal
cell `t`. -/
structure LoopInv (gr : Grid) (s t : Cell) (ol : List PathNode)
    (closed : Finset Cell) : Prop where
  nodes : ∀ n ∈ ol, NodeInv gr s t n
  nodup : (ol.map cellOf).Nodup
  notClosed : ∀ n ∈ ol, cellOf n ∉ closed
  olBounded : ∀ n ∈ ol, cellOf n ∈ boundedCells
  closedBounded : closed ⊆ boundedCells
  goalOpen : t ∉ closed
  frontier : ∀ u du, IsDist gr s u du → u ∉ closed →
    ∃ n ∈ ol, IsDist gr s (cellOf n) n.gval ∧
      ∃ dnu, IsDist gr (cellOf n) u dnu ∧ n.gval + dnu = du
  escape : ∀ c ∈ closed, ∀ w, stepTo gr c w →
    w ∈ closed ∨ ∃ n ∈ ol, cellOf n = w ∧
      ∀ dc, IsDist gr s c dc → n.gval ≤ dc + 1

/-! ## The action log (`src/systems/UndoSystem.ts`)

Reversal procedures are arbitrary closures over game state; they are
embedded as functions `σ → σ` for an abstract external-state type `σ`.
`Date.now()` timestamps are passed in as explicit parameters. -/

/-- `UndoActionType` of `UndoSystem.ts`. -/
inductive UndoActionType where
  | scene_transition
  | object_interaction
  | player_movement
deriving DecidableEq

/-- A `{x, y, z}` position record. -/
structure PosRec where
  x : ℚ
  y : ℚ
  z : ℚ
deriving DecidableEq

/-- `InventoryItem` of `src/systems/Inventory.ts`. -/
structure InventoryItem where
  id : String
  name : String
  description : String
  color : ℤ
deriving DecidableEq

/-- The payload union of `UndoAction.data`: `SceneTransitionData`,
`ObjectInteractionData` or `PlayerMovementData`. -/
inductive UndoData where
  | sceneTransition (fromScene toScene : String) (playerPosition : Option PosRec)
  | objectInteraction (objectId : String) (inventoryStateBefore : List InventoryItem)
      (objectPosition : PosRec)
  | playerMovement (fromPosition toPosition : PosRec)

/-- `UndoAction` of `UndoSystem.ts`: discriminant, timestamp, payload and
the reversal closure. -/
structure UndoAction (σ : Type) where
  type : UndoActionType
  timestamp : ℤ
  data : UndoData
  undo : σ → σ

/-- `UndoSystem`: the ordered action stack (`push` appends at the end,
`pop` removes from the end). -/
structure UndoSystem (σ : Type) where
  actionStack : List (UndoAction σ)

/-- `UndoSystem.recordSceneTransition`. -/
def recordSceneTransition (s : UndoSystem σ) (fromScene toScene : String)
    (undoCallback : σ → σ) (playerPosition : Option PosRec) (now : ℤ) :
    UndoSystem σ :=
  { actionStack := s.actionStack ++
      [{ type := .scene_transition, timestamp := now,
         data := .sceneTransition fromScene toScene playerPosition,
         undo := undoCallback }] }

/-- `UndoSystem.recordObjectInteraction`. -/
def recordObjectInteraction (s : UndoSystem σ) (objectId : String)
    (inventoryStateBefore : List InventoryItem) (objectPosition : PosRec)
    (undoCallback : σ → σ) (now : ℤ) : UndoSystem σ :=
  { actionStack := s.actionStack ++
      [{ type := .object_interaction, timestamp := now,
         data := .objectInteraction objectId inventoryStateBefore objectPosition,
         undo := undoCallback }] }

/-- `UndoSystem.recordPlayerMovement`. -/
def recordPlayerMovement (s : UndoSystem σ) (fromPosition toPosition : PosRec)
    (undoCallback : σ → σ) (now : ℤ) : UndoSystem σ :=
  { actionStack := s.actionStack ++
      [{ type := .player_movement, timestamp := now,
         data := .playerMovement fromPosition toPosition,
         undo := undoCallback }] }

/-- `UndoSystem.undo()`: on an empty stack report `false` with no side
effect; otherwise pop the top action, invoke its reversal exactly once on
the external state, and report `true`.  Returns (result, new system, new
external state). -/
def UndoSystem.undo (s : UndoSystem σ) (st : σ) : Bool × UndoSystem σ × σ :=
  match s.actionStack.getLast? with
  | none => (false, s, st)
  | some action => (true, { actionStack := s.actionStack.dropLast }, action.undo st)

/-- `UndoSystem.canUndo()`. -/
def UndoSystem.canUndo (s : UndoSystem σ) : Bool :=
  decide (0 < s.actionStack.length)

/-- `UndoSystem.getActionCount()`. -/
def UndoSystem.getActionCount (s : UndoSystem σ) : ℕ :=
  s.actionStack.length

/-- `UndoSystem.getLastActionType()`. -/
def UndoSystem.getLastActionType (s : UndoSystem σ) : Option UndoActionType :=
  s.actionStack.getLast?.map (fun a => a.type)

/-- `UndoSystem.clear()`: discard every pending action; reversal closures
are not invoked (the external state is not even an input). -/
def UndoSystem.clear (_s : UndoSystem σ) : UndoSystem σ :=
  { actionStack := [] }

/-! ## Scene transitions (`src/game/SceneManager.ts`)

In the wiring of `Game.ts`, `SceneManager.switchToScene` is the only
producer of undo actions, and its reversal closure captures exactly the
previous scene name and the player position at record time; the closure is
therefore defunctionalised into that captured data.  Mesh/DOM effects of
`Scene.enter`/`Scene.exit` are rendering-level collaborators and do not
touch any state modelled here. -/

/-- A recorded scene-transition action: timestamp, `SceneTransitionData`,
and the data its reversal closure captured (`previousScene` =
`fromScene`, `playerPosition`). -/
structure SceneAction where
  timestamp : ℤ
  fromScene : String
  toScene : String
  playerPosition : Option PosRec
deriving DecidableEq

/-- The state of `SceneManager` together with the wired undo stack and the
navigable agent's position (`RoomScene.player.position`, the value
`getPlayerPositionCallback` reads and `setPlayerPosition` writes). -/
structure SMState where
  scenes : List String
  currentSceneName : Option String
  undoStack : List SceneAction
  playerPos : Option PosRec
  hasUndoSystem : Bool
  hasPosCallback : Bool
  posRestorable : List String
deriving DecidableEq

/-- `SceneManager.switchToScene(sceneName, recordUndo)`: unknown scenes are
a no-op; otherwise the current scene changes and, when `recordUndo` is set,
an undo system is wired and there is a previous scene, a scene-transition
action holding the captured previous scene and player position is pushed. -/
def switchToScene (w : SMState) (sceneName : String) (recordUndo : Bool)
    (now : ℤ) : SMState :=
  if sceneName ∈ w.scenes then
    let previousScene := w.currentSceneName
    let playerPosition := if w.hasPosCallback then w.playerPos else none
    let w1 := { w with currentSceneName := some sceneName }
    match previousScene with
    | some prev =>
        if recordUndo ∧ w.hasUndoSystem then
          { w1 with undoStack := w1.undoStack ++
              [{ timestamp := now, fromScene := prev, toScene := sceneName,
                 playerPosition := playerPosition }] }
        else w1
    | none => w1
  else w

/-- Whether the current scene exposes `setPlayerPosition` (the
`(currentScene as any).setPlayerPosition` capability check). -/
def currentSceneRestorable (w : SMState) : Bool :=
  match w.currentSceneName with
  | some n => decide (n ∈ w.posRestorable)
  | none => false

/-- `UndoSystem.undo()` as wired by `Game.ts`/`SceneManager.ts`, where every
recorded action is a scene transition: pop the top action and run its
reversal closure, which re-enters `switchToScene` with `recordUndo = false`
and then restores the captured player position when available. -/
def undoSceneWorld (w : SMState) (now : ℤ) : Bool × SMState :=
  match w.undoStack.getLast? with
  | none => (false, w)
  | some action =>
      let w1 := { w with undoStack := w.undoStack.dropLast }
      let w2 := switchToScene w1 action.fromScene false now
      let w3 :=
        if action.playerPosition.isSome ∧ w2.hasPosCallback ∧ currentSceneRestorable w2 then
          { w2 with playerPos := action.playerPosition }
        else w2
      (true, w3)

/-! ## Save records and game-state loading
(`src/systems/SaveSystem.ts`, `src/game/Game.ts`) -/

/-- `GameProgress` of `src/systems/GameStateManager.ts`. -/
structure GameProgress where
  itemsCollected : ℕ
  requiredItems : ℕ
  puzzleCompleted : Bool
  puzzleAttempts : ℕ
  maxPuzzleAttempts : ℕ
deriving DecidableEq

/-- `PlayerState` of `SaveSystem.ts`. -/
structure PlayerState where
  position : PosRec
  currentScene : String
deriving DecidableEq

/-- `SaveData` of `SaveSystem.ts` — the persisted save record. -/
structure SaveData where
  timestamp : ℤ
  slotName : String
  inventory : List InventoryItem
  gameProgress : GameProgress
  playerState : PlayerState
  interactableObjectsRemoved : List String
deriving DecidableEq

/-- The top-level wire-format keys `JSON.stringify` emits for a `SaveData`
record, in the declared field order of `SaveSystem.ts` (which is also the
literal order of `Game.captureGameState`). -/
def saveDataKeys : List String :=
  ["timestamp", "slotName", "inventory", "gameProgress", "playerState",
   "interactableObjectsRemoved"]

/-- Modelled from the spec: the §6 wire-format field names the spec claims
(`slotLabel`, `removedObjectIds`), which do not appear in the source. -/
def specSaveRecordKeys : List String :=
  ["timestamp", "slotLabel", "inventory", "gameProgress", "playerState",
   "removedObjectIds"]

/-- One serialized top-level field value of a save record. -/
inductive WireValue where
  | int (n : ℤ)
  | str (s : String)
  | items (xs : List InventoryItem)
  | progress (p : GameProgress)
  | player (p : PlayerState)
  | strs (xs : List String)
deriving DecidableEq

/-- Serialization of a save record into named wire fields, with the field
names and order `JSON.stringify` produces on `SaveData`. -/
def toWire (d : SaveData) : List (String × WireValue) :=
  [("timestamp", .int d.timestamp), ("slotName", .str d.slotName),
   ("inventory", .items d.inventory), ("gameProgress", .progress d.gameProgress),
   ("playerState", .player d.playerState),
   ("interactableObjectsRemoved", .strs d.interactableObjectsRemoved)]

/-- Field lookup by name on the wire form. -/
def getKey (w : List (String × WireValue)) (k : String) : Option WireValue :=
  (w.find? (fun p => p.1 = k)).map (fun p => p.2)

/-- Deserialization (`JSON.parse` followed by use as a `SaveData`): read
each field back by its `SaveSystem.ts` name. -/
def fromWire (w : List (String × WireValue)) : Option SaveData :=
  match getKey w "timestamp", getKey w "slotName", getKey w "inventory",
      getKey w "gameProgress", getKey w "playerState",
      getKey w "interactableObjectsRemoved" with
  | some (.int t), some (.str sl), some (.items inv), some (.progress gp),
      some (.player ps), some (.strs rem) =>
      some { timestamp := t, slotName := sl, inventory := inv,
             gameProgress := gp, playerState := ps,
             interactableObjectsRemoved := rem }
  | _, _, _, _, _, _ => none

/-- `Inventory.addItem` of `src/systems/Inventory.ts`: skip duplicates by
id, otherwise append. -/
def addItem (inv : List InventoryItem) (item : InventoryItem) : List InventoryItem :=
  if inv.any (fun i => i.id = item.id) then inv else inv ++ [item]

/-- The game-session state `Game.loadGameState` touches. -/
structure GameWorld where
  sm : SMState
  inventory : List InventoryItem
  itemsCollected : ℕ
  puzzleCompleted : Bool
  roomRemovedIds : List String
deriving DecidableEq

/-- `Game.loadGameState(data)`: clear the undo history, rebuild the
inventory, restore progress and removed objects, switch to the saved scene
with `recordUndo = false`, and restore the player position when the saved
scene is the room scene. -/
def loadGameState (w : GameWorld) (data : SaveData) (now : ℤ) : GameWorld :=
  let sm1 := { w.sm with undoStack := ([] : List SceneAction) }
  let inv2 := data.inventory.foldl addItem []
  let items := data.inventory.length
  let puzzle := w.puzzleCompleted || data.gameProgress.puzzleCompleted
  let removed := data.interactableObjectsRemoved
  let sm2 := switchToScene sm1 data.playerState.currentScene false now
  let sm3 :=
    if data.playerState.currentScene = "room" then
      { sm2 with playerPos := some data.playerState.position }
    else sm2
  { sm := sm3, inventory := inv2, itemsCollected := items,
    puzzleCompleted := puzzle, roomRemovedIds := removed }

/-! ## Basic facts about grid paths and distances -/

theorem mem_boundedCells {c : Cell} : c ∈ boundedCells ↔ inBounds c := by
  unfold boundedCells inBounds
  rcases c with ⟨a, b⟩
  simp [Finset.mem_Ico]
  tauto

theorem card_boundedCells : boundedCells.card = 3600 := by
  unfold boundedCells
  rw [Finset.card_product]
  simp [Int.card_Ico, gridWidth, gridDepth]

theorem validPath_singleton (gr : Grid) (s : Cell) : ValidPath gr s s [s] :=
  ⟨rfl, rfl, List.chain'_singleton s⟩

theorem ValidPath.ne_nil {gr : Grid} {s t : Cell} {p : List Cell}
    (h : ValidPath gr s t p) : p ≠ [] := by
  intro he
  subst he
  simp [ValidPath] at h

theorem ValidPath.length_pos {gr : Grid} {s t : Cell} {p : List Cell}
    (h : ValidPath gr s t p) : 0 < p.length :=
  List.length_pos.mpr h.ne_nil

theorem reachN_self (gr : Grid) (s : Cell) : ReachN gr s s 0 :=
  ⟨[s], validPath_singleton gr s, rfl⟩

theorem isDist_self (gr : Grid) (s : Cell) : IsDist gr s s 0 :=
  ⟨reachN_self gr s, fun m _ => Nat.zero_le m⟩

theorem reachN_zero_eq {gr : Grid} {s t : Cell} (h : ReachN gr s t 0) : s = t := by
  obtain ⟨p, ⟨hh, hl, _⟩, hlen⟩ := h
  match p, hlen with
  | [a], _ =>
    simp at hh hl
    rw [← hh, ← hl]

theorem ValidPath.reachN {gr : Grid} {s t : Cell} {p : List Cell}
    (h : ValidPath gr s t p) : ReachN gr s t (p.length - 1) :=
  ⟨p, h, by have := h.length_pos; omega⟩

/-- Peel the first move off a path of positive length. -/
theorem ReachN.head_step {gr : Grid} {s t : Cell} {n : ℕ}
    (h : ReachN gr s t (n + 1)) : ∃ w, stepTo gr s w ∧ ReachN gr w t n := by
  obtain ⟨p, ⟨hh, hl, hc⟩, hlen⟩ := h
  match p, hlen with
  | a :: b :: q, hlen =>
    have ha : a = s := by simpa using hh
    subst ha
    rw [List.chain'_cons] at hc
    refine ⟨b, hc.1, b :: q, ⟨rfl, ?_, hc.2⟩, by simpa using hlen⟩
    simpa [List.getLast?_cons_cons] using hl

/-- Append one move at the end of a path. -/
theorem ValidPath.snoc_step {gr : Grid} {s u w : Cell} {p : List Cell}
    (h : ValidPath gr s u p) (hs : stepTo gr u w) :
    ValidPath gr s w (p ++ [w]) := by
  obtain ⟨hh, hl, hc⟩ := h
  refine ⟨?_, List.getLast?_concat _, ?_⟩
  · rcases p with _ | ⟨a, q⟩
    · simp at hh
    · simpa using hh
  · rw [List.chain'_append]
    refine ⟨hc, List.chain'_singleton w, ?_⟩
    intro x hx y hy
    simp at hy
    subst hy
    rw [hl] at hx
    simp at hx
    subst hx
    exact hs

theorem ReachN.snoc_move {gr : Grid} {s u w : Cell} {a : ℕ}
    (h : ReachN gr s u a) (hs : stepTo gr u w) : ReachN gr s w (a + 1) := by
  obtain ⟨p, hp, hlen⟩ := h
  exact ⟨p ++ [w], hp.snoc_step hs, by simp [hlen]⟩

theorem ReachN.trans {gr : Grid} {s u t : Cell} {a b : ℕ}
    (h1 : ReachN gr s u a) (h2 : ReachN gr u t b) : ReachN gr s t (a + b) := by
  induction b generalizing u a with
  | zero =>
      have := reachN_zero_eq h2
      subst this
      simpa using h1
  | succ b ih =>
      obtain ⟨w, hw, h2'⟩ := h2.head_step
      have h3 : ReachN gr s t ((a + 1) + b) := ih (h1.snoc_move hw) h2'
      have heq : (a + 1) + b = a + (b + 1) := by omega
      rw [heq] at h3
      exact h3

theorem stepTo.reachN_one {gr : Grid} {u w : Cell} (h : stepTo gr u w) :
    ReachN gr u w 1 :=
  (reachN_self gr u).snoc_move h

theorem natAbs_sub_comm (a b : ℤ) : (a - b).natAbs = (b - a).natAbs := by
  rw [← Int.natAbs_neg (a - b), neg_sub]

theorem adj4_manhattan {u v : Cell} (h : adj4 u v) : manhattan u v = 1 := by
  unfold adj4 at h
  unfold manhattan
  rw [natAbs_sub_comm u.1 v.1, natAbs_sub_comm u.2 v.2]
  exact h

theorem manhattan_self (c : Cell) : manhattan c c = 0 := by
  simp [manhattan]

theorem manhattan_triangle (a b c : Cell) :
    manhattan a c ≤ manhattan a b + manhattan b c := by
  unfold manhattan
  have h1 : (a.1 - c.1).natAbs ≤ (a.1 - b.1).natAbs + (b.1 - c.1).natAbs := by
    have : a.1 - c.1 = (a.1 - b.1) + (b.1 - c.1) := by ring
    rw [this]
    exact Int.natAbs_add_le _ _
  have h2 : (a.2 - c.2).natAbs ≤ (a.2 - b.2).natAbs + (b.2 - c.2).natAbs := by
    have : a.2 - c.2 = (a.2 - b.2) + (b.2 - c.2) := by ring
    rw [this]
    exact Int.natAbs_add_le _ _
  omega

/-- Admissibility of the Manhattan heuristic. -/
theorem ReachN.manhattan_le {gr : Grid} {a b : Cell} {m : ℕ}
    (h : ReachN gr a b m) : manhattan a b ≤ m := by
  induction m generalizing a with
  | zero =>
      have := reachN_zero_eq h
      subst this
      simp [manhattan_self]
  | succ m ih =>
      obtain ⟨w, hw, h'⟩ := h.head_step
      calc manhattan a b ≤ manhattan a w + manhattan w b := manhattan_triangle a w b
        _ ≤ 1 + m := by
            have := adj4_manhattan hw.2.2
            have := ih h'
            omega
        _ = m + 1 := by omega

theorem exists_isDist {gr : Grid} {s t : Cell} (h : Reach gr s t) :
    ∃ d, IsDist gr s t d := by
  classical
  obtain ⟨p, hp⟩ := h
  have hne : ∃ n, ReachN gr s t n := ⟨p.length - 1, hp.reachN⟩
  exact ⟨Nat.find hne, Nat.find_spec hne, fun m hm => Nat.find_min' hne hm⟩

theorem IsDist.unique {gr : Grid} {s t : Cell} {d d' : ℕ}
    (h : IsDist gr s t d) (h' : IsDist gr s t d') : d = d' :=
  Nat.le_antisymm (h.2 _ h'.1) (h'.2 _ h.1)

theorem IsDist.shortestPathLen {gr : Grid} {s t : Cell} {d : ℕ}
    (h : IsDist gr s t d) : IsShortestPathLen gr s t (d + 1) := by
  obtain ⟨⟨p, hp, hlen⟩, hmin⟩ := h
  refine ⟨⟨p, hp, hlen⟩, fun q hq => ?_⟩
  have h1 := hq.length_pos
  have h2 := hmin _ hq.reachN
  omega

/-- Peel the first move off a shortest-path pair: if `c` lies on a shortest
path from `s` to `u` (witnessed by exact distances) and `u ≠ c`, the move
after `c` also lies on one. -/
theorem isDist_step_decomp {gr : Grid} {s c u : Cell} {dc dcu du : ℕ}
    (hsc : IsDist gr s c dc) (hcu : IsDist gr c u dcu)
    (hdu : IsDist gr s u du) (hsum : dc + dcu = du) (hne : u ≠ c) :
    ∃ w, stepTo gr c w ∧ IsDist gr s w (dc + 1) ∧
      ∃ dwu, IsDist gr w u dwu ∧ (dc + 1) + dwu = du := by
  rcases dcu with _ | k
  · exact absurd (reachN_zero_eq hcu.1).symm hne
  obtain ⟨w, hw, hwu⟩ := hcu.1.head_step
  have hwu_dist : IsDist gr w u k := by
    refine ⟨hwu, fun m hm => ?_⟩
    have : ReachN gr c u (1 + m) := (hw.reachN_one).trans hm
    have := hcu.2 _ this
    omega
  have hsw : IsDist gr s w (dc + 1) := by
    refine ⟨hsc.1.snoc_move hw, fun m hm => ?_⟩
    have : ReachN gr s u (m + k) := hm.trans hwu
    have := hdu.2 _ this
    omega
  exact ⟨w, hw, hsw, k, hwu_dist, by omega⟩

/-! ## Facts about search nodes (`GridNode`) and their parent chains -/

theorem trace_ne_nil : ∀ n : PathNode, trace n ≠ []
  | .mk _ _ _ _ _ none => by simp [trace]
  | .mk _ _ _ _ _ (some _) => by simp [trace]

theorem trace_getLast : ∀ n : PathNode, (trace n).getLast? = some (cellOf n)
  | .mk x z gv hv fv none => by
      simp [trace, cellOf, PathNode.xval, PathNode.zval]
  | .mk x z gv hv fv (some p) => by
      simp [trace, cellOf, PathNode.xval, PathNode.zval, List.getLast?_concat]

theorem trace_length {gr : Grid} {s t : Cell} :
    ∀ n : PathNode, NodeInv gr s t n → (trace n).length = n.gval + 1
  | .mk x z gv hv fv none, hn => by
      obtain ⟨-, hg, -, -⟩ := hn
      simp [trace, PathNode.gval, hg]
  | .mk x z gv hv fv (some p), hn => by
      obtain ⟨hp, -, hg, -, -⟩ := hn
      simp [trace, PathNode.gval, hg, trace_length p hp]

theorem trace_validPath {gr : Grid} {s t : Cell} :
    ∀ n : PathNode, NodeInv gr s t n → ValidPath gr s (cellOf n) (trace n)
  | .mk x z gv hv fv none, hn => by
      obtain ⟨hc, -, -, -⟩ := hn
      rw [show cellOf (PathNode.mk x z gv hv fv none) = (x, z) from rfl,
        show trace (PathNode.mk x z gv hv fv none) = [(x, z)] from rfl, hc]
      exact validPath_singleton gr s
  | .mk x z gv hv fv (some p), hn => by
      obtain ⟨hp, hstep, -, -, -⟩ := hn
      have h1 := trace_validPath p hp
      have h2 := h1.snoc_step hstep
      exact h2

theorem nodeInv_reachN {gr : Grid} {s t : Cell} {n : PathNode}
    (hn : NodeInv gr s t n) : ReachN gr s (cellOf n) n.gval :=
  ⟨trace n, trace_validPath n hn, by rw [trace_length n hn]⟩

theorem trace_head {gr : Grid} {s t : Cell} {n : PathNode}
    (hn : NodeInv gr s t n) : (trace n).head? = some s :=
  (trace_validPath n hn).1

theorem nodeInv_f {gr : Grid} {s t : Cell} :
    ∀ n : PathNode, NodeInv gr s t n → n.fval = n.gval + n.hval
  | .mk x z gv hv fv none, hn => by
      obtain ⟨-, hg, hh, hf⟩ := hn
      simp [PathNode.fval, PathNode.gval, PathNode.hval, hg, hh, hf]
  | .mk x z gv hv fv (some p), hn => by
      obtain ⟨-, -, -, -, hf⟩ := hn
      simpa [PathNode.fval, PathNode.gval, PathNode.hval] using hf

theorem nodeInv_h_le {gr : Grid} {s t : Cell} :
    ∀ n : PathNode, NodeInv gr s t n → n.hval ≤ manhattan (cellOf n) t
  | .mk x z gv hv fv none, hn => by
      obtain ⟨-, -, hh, -⟩ := hn
      simp [PathNode.hval, hh]
  | .mk x z gv hv fv (some p), hn => by
      obtain ⟨-, -, -, hh, -⟩ := hn
      simp [PathNode.hval, cellOf, PathNode.xval, PathNode.zval, hh]

theorem nodeInv_h_goal {gr : Grid} {s t : Cell} :
    ∀ n : PathNode, NodeInv gr s t n → cellOf n = t → n.hval = 0
  | .mk x z gv hv fv none, hn, _ => by
      obtain ⟨-, -, hh, -⟩ := hn
      simpa [PathNode.hval] using hh
  | .mk x z gv hv fv (some p), hn, hcell => by
      obtain ⟨-, -, -, hh, -⟩ := hn
      have : (x, z) = t := hcell
      simp [PathNode.hval, hh, this, manhattan_self]

theorem nodeInv_parent_none_g {gr : Grid} {s t : Cell} :
    ∀ n : PathNode, NodeInv gr s t n → n.parent = none → n.gval = 0
  | .mk x z gv hv fv none, hn, _ => by
      obtain ⟨-, hg, -, -⟩ := hn
      simpa [PathNode.gval] using hg
  | .mk x z gv hv fv (some p), _, hp => by
      simp [PathNode.parent] at hp

theorem nodeInv_parent_some_h {gr : Grid} {s t : Cell} :
    ∀ n : PathNode, NodeInv gr s t n → n.parent ≠ none →
      n.hval = manhattan (cellOf n) t
  | .mk x z gv hv fv none, _, hp => by
      simp [PathNode.parent] at hp
  | .mk x z gv hv fv (some p), hn, _ => by
      obtain ⟨-, -, -, hh, -⟩ := hn
      simpa [PathNode.hval, cellOf, PathNode.xval, PathNode.zval] using hh

theorem collect_reverse_eq : ∀ n : PathNode,
    (collect n).reverse = (trace n).map cellToWorld
  | .mk x z gv hv fv none => by
      simp [collect, trace]
  | .mk x z gv hv fv (some p) => by
      simp [collect, trace, collect_reverse_eq p]

/-! ## The open-list minimum scan and `splice` -/

theorem lowestScan_spec : ∀ (rest pre : List PathNode) (bi bf : ℕ),
    bi < pre.length → (pre.getD bi default).fval = bf →
    (∀ m ∈ pre, bf ≤ m.fval) →
    lowestScan rest pre.length bi bf < (pre ++ rest).length ∧
      ∀ m ∈ pre ++ rest,
        ((pre ++ rest).getD (lowestScan rest pre.length bi bf) default).fval ≤ m.fval
  | [], pre, bi, bf, hbi, hbf, hmin => by
      simp only [lowestScan, List.append_nil]
      exact ⟨hbi, by
        intro m hm
        rw [hbf]
        exact hmin m hm⟩
  | n :: rs, pre, bi, bf, hbi, hbf, hmin => by
      have hlen1 : pre.length + 1 = (pre ++ [n]).length := by simp
      have hassoc : (pre ++ [n]) ++ rs = pre ++ n :: rs := by
        simp
      by_cases hc : n.fval < bf
      · have h1 := lowestScan_spec rs (pre ++ [n]) pre.length n.fval
          (by simp) (by
            rw [List.getD_eq_getElem?_getD]
            rw [List.getElem?_concat_length]
            rfl)
          (by
            intro m hm
            rcases List.mem_append.mp hm with hm | hm
            · exact le_of_lt (lt_of_lt_of_le hc (hmin m hm))
            · simp at hm
              subst hm
              exact le_rfl)
        rw [hassoc, ← hlen1] at h1
        simpa [lowestScan, hc] using h1
      · have h1 := lowestScan_spec rs (pre ++ [n]) bi bf
          (by simpa using Nat.lt_succ_of_lt hbi)
          (by rw [List.getD_append _ _ _ _ hbi]; exact hbf)
          (by
            intro m hm
            rcases List.mem_append.mp hm with hm | hm
            · exact hmin m hm
            · simp at hm
              subst hm
              omega)
        rw [hassoc, ← hlen1] at h1
        simpa [lowestScan, hc] using h1

theorem lowestIndex_spec (n0 : PathNode) (rest : List PathNode) :
    lowestIndex (n0 :: rest) < (n0 :: rest).length ∧
      ∀ m ∈ n0 :: rest,
        ((n0 :: rest).getD (lowestIndex (n0 :: rest)) default).fval ≤ m.fval := by
  have h := lowestScan_spec rest [n0] 0 n0.fval (by simp) (by simp) (by simp)
  simpa [lowestIndex] using h

theorem getD_mem (l : List PathNode) (i : ℕ) (hi : i < l.length) :
    l.getD i default ∈ l := by
  rw [List.getD_eq_get l default hi]
  exact List.get_mem l i hi

theorem map_eraseIdx_cellOf : ∀ (l : List PathNode) (i : ℕ),
    (l.eraseIdx i).map cellOf = (l.map cellOf).eraseIdx i
  | [], _ => by simp
  | a :: tl, 0 => by simp
  | a :: tl, i + 1 => by
      simp [List.eraseIdx_cons_succ, map_eraseIdx_cellOf tl i]

theorem eraseIdx_cell_ne : ∀ (l : List PathNode) (i : ℕ), i < l.length →
    (l.map cellOf).Nodup → ∀ x ∈ l.eraseIdx i, cellOf x ≠ cellOf (l.getD i default)
  | a :: tl, 0, _, hnd, x, hx => by
      rw [List.eraseIdx_cons_zero] at hx
      rw [List.getD_cons_zero]
      rw [List.map_cons, List.nodup_cons] at hnd
      intro he
      exact hnd.1 (he ▸ List.mem_map_of_mem cellOf hx)
  | a :: tl, i + 1, hi, hnd, x, hx => by
      rw [List.getD_cons_succ]
      rw [List.eraseIdx_cons_succ] at hx
      rw [List.map_cons, List.nodup_cons] at hnd
      rcases List.mem_cons.mp hx with rfl | hx
      · intro he
        have hmem : tl.getD i default ∈ tl :=
          getD_mem tl i (by simpa using Nat.lt_of_succ_lt_succ hi)
        refine hnd.1 ?_
        rw [he]
        exact List.mem_map_of_mem cellOf hmem
      · exact eraseIdx_cell_ne tl i (by simpa using Nat.lt_of_succ_lt_succ hi)
          hnd.2 x hx

theorem mem_eraseIdx_of_ne : ∀ (l : List PathNode) (i : ℕ), i < l.length →
    ∀ x ∈ l, x ≠ l.getD i default → x ∈ l.eraseIdx i
  | a :: tl, 0, _, x, hx, hne => by
      rw [List.getD_cons_zero] at hne
      rw [List.eraseIdx]
      rcases List.mem_cons.mp hx with rfl | hx
      · exact absurd rfl hne
      · exact hx
  | a :: tl, i + 1, hi, x, hx, hne => by
      rw [List.getD_cons_succ] at hne
      rw [List.eraseIdx]
      rcases List.mem_cons.mp hx with rfl | hx
      · exact List.mem_cons_self _ _
      · exact List.mem_cons_of_mem a
          (mem_eraseIdx_of_ne tl i (by simpa using Nat.lt_of_succ_lt_succ hi) x hx hne)

/-! ## Facts about neighbor expansion -/

theorem mem_replaceFirst {p : PathNode → Bool} {v : PathNode} :
    ∀ l, ∀ m ∈ replaceFirst p v l, m = v ∨ m ∈ l
  | [], m, hm => by simp [replaceFirst] at hm
  | a :: rest, m, hm => by
      rw [replaceFirst] at hm
      split_ifs at hm with hp
      · rcases List.mem_cons.mp hm with rfl | hm
        · exact Or.inl rfl
        · exact Or.inr (List.mem_cons_of_mem a hm)
      · rcases List.mem_cons.mp hm with rfl | hm
        · exact Or.inr (List.mem_cons_self _ _)
        · rcases mem_replaceFirst rest m hm with h | h
          · exact Or.inl h
          · exact Or.inr (List.mem_cons_of_mem a h)

theorem map_cellOf_replaceFirst {p : PathNode → Bool} {v : PathNode}
    (hcell : ∀ a, p a = true → cellOf a = cellOf v) :
    ∀ l, (replaceFirst p v l).map cellOf = l.map cellOf
  | [] => rfl
  | a :: rest => by
      rw [replaceFirst]
      split_ifs with hp
      · simp [hcell a hp]
      · simp [map_cellOf_replaceFirst hcell rest]

theorem replaceFirst_exists {p : PathNode → Bool} {v : PathNode}
    (hcell : ∀ a, p a = true → cellOf a = cellOf v) :
    ∀ l, ∀ n ∈ l, ∃ m ∈ replaceFirst p v l,
      cellOf m = cellOf n ∧ (m = n ∨ (p n = true ∧ m = v))
  | [], n, hn => by simp at hn
  | a :: rest, n, hn => by
      rw [replaceFirst]
      split_ifs with hp
      · rcases List.mem_cons.mp hn with rfl | hn
        · exact ⟨v, List.mem_cons_self _ _, (hcell n hp).symm, Or.inr ⟨hp, rfl⟩⟩
        · exact ⟨n, List.mem_cons_of_mem v hn, rfl, Or.inl rfl⟩
      · rcases List.mem_cons.mp hn with rfl | hn
        · exact ⟨n, List.mem_cons_self _ _, rfl, Or.inl rfl⟩
        · obtain ⟨m, hm, hc, ho⟩ := replaceFirst_exists hcell rest n hn
          exact ⟨m, List.mem_cons_of_mem a hm, hc, ho⟩

theorem replaceFirst_mem_self {p : PathNode → Bool} {v : PathNode} :
    ∀ l, (∃ a ∈ l, p a = true) → v ∈ replaceFirst p v l
  | [], h => by simp at h
  | a :: rest, h => by
      rw [replaceFirst]
      split_ifs with hp
      · exact List.mem_cons_self _ _
      · obtain ⟨b, hb, hpb⟩ := h
        rcases List.mem_cons.mp hb with rfl | hb
        · exact absurd hpb (by simp [hp])
        · exact List.mem_cons_of_mem a (replaceFirst_mem_self rest ⟨b, hb, hpb⟩)

theorem isCellNode_iff {nx nz : ℤ} {n : PathNode} :
    isCellNode nx nz n = true ↔ cellOf n = (nx, nz) := by
  unfold isCellNode cellOf
  rw [decide_eq_true_eq, Prod.mk.injEq]

/-- Case analysis on one neighbor-loop iteration of `findPath`. -/
theorem processNeighbor_elim (gr : Grid) (closed : Finset Cell) (tx tz : ℤ)
    (cur : PathNode) (ol : List PathNode) (off : ℤ × ℤ)
    {motive : List PathNode → Prop}
    (hskip :
      ¬ (0 ≤ cur.xval + off.1 ∧ cur.xval + off.1 < gridWidth ∧
        0 ≤ cur.zval + off.2 ∧ cur.zval + off.2 < gridDepth ∧
        gr (cur.xval + off.1, cur.zval + off.2) = true ∧
        (cur.xval + off.1, cur.zval + off.2) ∉ closed) →
      motive ol)
    (hkeep : ∀ nb,
      (0 ≤ cur.xval + off.1 ∧ cur.xval + off.1 < gridWidth ∧
        0 ≤ cur.zval + off.2 ∧ cur.zval + off.2 < gridDepth ∧
        gr (cur.xval + off.1, cur.zval + off.2) = true ∧
        (cur.xval + off.1, cur.zval + off.2) ∉ closed) →
      ol.find? (isCellNode (cur.xval + off.1) (cur.zval + off.2)) = some nb →
      ¬ (cur.gval + 1 < nb.gval) →
      motive ol)
    (happend :
      (0 ≤ cur.xval + off.1 ∧ cur.xval + off.1 < gridWidth ∧
        0 ≤ cur.zval + off.2 ∧ cur.zval + off.2 < gridDepth ∧
        gr (cur.xval + off.1, cur.zval + off.2) = true ∧
        (cur.xval + off.1, cur.zval + off.2) ∉ closed) →
      ol.find? (isCellNode (cur.xval + off.1) (cur.zval + off.2)) = none →
      motive (ol ++ [.mk (cur.xval + off.1) (cur.zval + off.2) (cur.gval + 1)
        (((cur.xval + off.1) - tx).natAbs + ((cur.zval + off.2) - tz).natAbs)
        ((cur.gval + 1) +
          (((cur.xval + off.1) - tx).natAbs + ((cur.zval + off.2) - tz).natAbs))
        (some cur)]))
    (hreplace : ∀ nb,
      (0 ≤ cur.xval + off.1 ∧ cur.xval + off.1 < gridWidth ∧
        0 ≤ cur.zval + off.2 ∧ cur.zval + off.2 < gridDepth ∧
        gr (cur.xval + off.1, cur.zval + off.2) = true ∧
        (cur.xval + off.1, cur.zval + off.2) ∉ closed) →
      ol.find? (isCellNode (cur.xval + off.1) (cur.zval + off.2)) = some nb →
      cur.gval + 1 < nb.gval →
      motive (replaceFirst (isCellNode (cur.xval + off.1) (cur.zval + off.2))
        (.mk (cur.xval + off.1) (cur.zval + off.2) (cur.gval + 1) nb.hval
          ((cur.gval + 1) + nb.hval) (some cur)) ol)) :
    motive (processNeighbor gr closed tx tz cur ol off) := by
  unfold processNeighbor
  dsimp only
  split_ifs with hg
  · cases hf : ol.find? (isCellNode (cur.xval + off.1) (cur.zval + off.2)) with
    | none => exact happend hg hf
    | some nb =>
        dsimp only
        split_ifs with hlt
        · exact hreplace nb hg hf hlt
        · exact hkeep nb hg hf hlt
  · exact hskip hg

theorem adj4_of_offset {c : Cell} {off : ℤ × ℤ} (hoff : off ∈ neighborOffsets) :
    adj4 c (c.1 + off.1, c.2 + off.2) := by
  unfold adj4
  rcases c with ⟨a, b⟩
  fin_cases hoff <;> simp

set_option maxRecDepth 4000 in
/-- One neighbor iteration preserves the open-list well-formedness bundle,
and never loses a cell nor increases any cell's `g`-cost. -/
theorem processNeighbor_pres (gr : Grid) (s t : Cell) (closed : Finset Cell)
    (cur : PathNode) (hcur : NodeInv gr s t cur)
    (off : ℤ × ℤ) (hoff : off ∈ neighborOffsets)
    (ol : List PathNode) (hop : OpenInv gr s t closed ol) :
    OpenInv gr s t closed (processNeighbor gr closed t.1 t.2 cur ol off) ∧
    ∀ n ∈ ol, ∃ m ∈ processNeighbor gr closed t.1 t.2 cur ol off,
      cellOf m = cellOf n ∧ m.gval ≤ n.gval := by
  obtain ⟨hnodes, hnd, hcl, hbd⟩ := hop
  refine processNeighbor_elim (motive := fun res => OpenInv gr s t closed res ∧
    ∀ n ∈ ol, ∃ m ∈ res, cellOf m = cellOf n ∧ m.gval ≤ n.gval)
    gr closed t.1 t.2 cur ol off ?_ ?_ ?_ ?_
  · exact fun _ => ⟨⟨hnodes, hnd, hcl, hbd⟩, fun n hn => ⟨n, hn, rfl, le_rfl⟩⟩
  · exact fun _ _ _ _ => ⟨⟨hnodes, hnd, hcl, hbd⟩, fun n hn => ⟨n, hn, rfl, le_rfl⟩⟩
  · intro hg hf
    have hnotin : (cur.xval + off.1, cur.zval + off.2) ∉ ol.map cellOf := by
      intro hmem
      obtain ⟨x, hx, hcx⟩ := List.mem_map.mp hmem
      exact (List.find?_eq_none.mp hf x hx) (isCellNode_iff.mpr hcx)
    have hstep : stepTo gr (cellOf cur) (cur.xval + off.1, cur.zval + off.2) := by
      refine ⟨⟨hg.1, hg.2.1, hg.2.2.1, hg.2.2.2.1⟩, hg.2.2.2.2.1, ?_⟩
      exact adj4_of_offset hoff
    constructor
    · refine ⟨?_, ?_, ?_, ?_⟩
      · intro n hn
        rcases List.mem_append.mp hn with hn | hn
        · exact hnodes n hn
        · simp at hn
          subst hn
          exact ⟨hcur, hstep, rfl, rfl, rfl⟩
      · rw [List.map_append, List.nodup_append]
        refine ⟨hnd, List.nodup_singleton _, ?_⟩
        intro a ha hb
        simp at hb
        subst hb
        exact hnotin ha
      · intro n hn
        rcases List.mem_append.mp hn with hn | hn
        · exact hcl n hn
        · simp at hn
          subst hn
          exact hg.2.2.2.2.2
      · intro n hn
        rcases List.mem_append.mp hn with hn | hn
        · exact hbd n hn
        · simp at hn
          subst hn
          exact mem_boundedCells.mpr ⟨hg.1, hg.2.1, hg.2.2.1, hg.2.2.2.1⟩
    · intro n hn
      exact ⟨n, List.mem_append_left _ hn, rfl, le_rfl⟩
  · intro nb hg hf hlt
    have hnb_mem : nb ∈ ol := List.mem_of_find?_eq_some hf
    have hnb_cell : cellOf nb = (cur.xval + off.1, cur.zval + off.2) :=
      isCellNode_iff.mp (List.find?_some hf)
    have hcell : ∀ a, isCellNode (cur.xval + off.1) (cur.zval + off.2) a = true →
        cellOf a = cellOf (PathNode.mk (cur.xval + off.1) (cur.zval + off.2)
          (cur.gval + 1) nb.hval ((cur.gval + 1) + nb.hval) (some cur)) := by
      intro a ha
      exact isCellNode_iff.mp ha
    have hstep : stepTo gr (cellOf cur) (cur.xval + off.1, cur.zval + off.2) := by
      refine ⟨⟨hg.1, hg.2.1, hg.2.2.1, hg.2.2.2.1⟩, hg.2.2.2.2.1, ?_⟩
      exact adj4_of_offset hoff
    have hnbh : nb.hval = manhattan (cur.xval + off.1, cur.zval + off.2) t := by
      have hpar : nb.parent ≠ none := by
        intro hp
        have := nodeInv_parent_none_g nb (hnodes nb hnb_mem) hp
        omega
      have := nodeInv_parent_some_h nb (hnodes nb hnb_mem) hpar
      rw [this, hnb_cell]
    have hv_inv : NodeInv gr s t (PathNode.mk (cur.xval + off.1) (cur.zval + off.2)
        (cur.gval + 1) nb.hval ((cur.gval + 1) + nb.hval) (some cur)) :=
      ⟨hcur, hstep, rfl, hnbh, rfl⟩
    constructor
    · refine ⟨?_, ?_, ?_, ?_⟩
      · intro n hn
        rcases mem_replaceFirst _ n hn with rfl | hn
        · exact hv_inv
        · exact hnodes n hn
      · rw [map_cellOf_replaceFirst hcell]
        exact hnd
      · intro n hn
        rcases mem_replaceFirst _ n hn with rfl | hn
        · exact hg.2.2.2.2.2
        · exact hcl n hn
      · intro n hn
        rcases mem_replaceFirst _ n hn with rfl | hn
        · exact mem_boundedCells.mpr ⟨hg.1, hg.2.1, hg.2.2.1, hg.2.2.2.1⟩
        · exact hbd n hn
    · intro n hn
      obtain ⟨m, hm, hc, ho⟩ := replaceFirst_exists hcell ol n hn
      refine ⟨m, hm, hc, ?_⟩
      rcases ho with rfl | ⟨hpn, rfl⟩
      · exact le_rfl
      · have hn_eq : n = nb :=
          List.inj_on_of_nodup_map hnd hn hnb_mem
            ((isCellNode_iff.mp hpn).trans hnb_cell.symm)
        subst hn_eq
        exact le_of_lt hlt

set_option maxRecDepth 4000 in
/-- If a neighbor cell passes every check, the expanded open list holds a
node for it with `g`-cost at most `current.g + 1`. -/
theorem processNeighbor_cover (gr : Grid) (t : Cell) (closed : Finset Cell)
    (cur : PathNode) (off : ℤ × ℤ) (ol : List PathNode)
    (hg : inBounds (cur.xval + off.1, cur.zval + off.2) ∧
      gr (cur.xval + off.1, cur.zval + off.2) = true ∧
      (cur.xval + off.1, cur.zval + off.2) ∉ closed) :
    ∃ m ∈ processNeighbor gr closed t.1 t.2 cur ol off,
      cellOf m = (cur.xval + off.1, cur.zval + off.2) ∧
      m.gval ≤ cur.gval + 1 := by
  have hg' : 0 ≤ cur.xval + off.1 ∧ cur.xval + off.1 < gridWidth ∧
      0 ≤ cur.zval + off.2 ∧ cur.zval + off.2 < gridDepth ∧
      gr (cur.xval + off.1, cur.zval + off.2) = true ∧
      (cur.xval + off.1, cur.zval + off.2) ∉ closed :=
    ⟨hg.1.1, hg.1.2.1, hg.1.2.2.1, hg.1.2.2.2, hg.2.1, hg.2.2⟩
  refine processNeighbor_elim (motive := fun res => ∃ m ∈ res,
    cellOf m = (cur.xval + off.1, cur.zval + off.2) ∧ m.gval ≤ cur.gval + 1)
    gr closed t.1 t.2 cur ol off ?_ ?_ ?_ ?_
  · intro hng
    exact absurd hg' hng
  · intro nb _ hf hnlt
    refine ⟨nb, List.mem_of_find?_eq_some hf, isCellNode_iff.mp (List.find?_some hf), by omega⟩
  · intro _ _
    refine ⟨_, List.mem_append_right _ (List.mem_singleton_self _), rfl, le_rfl⟩
  · intro nb _ hf _
    refine ⟨_, replaceFirst_mem_self ol
      ⟨nb, List.mem_of_find?_eq_some hf, List.find?_some hf⟩, rfl, le_rfl⟩

/-- The whole neighbor loop preserves the open-list bundle and never loses
a cell nor increases its `g`-cost. -/
theorem expand_pres (gr : Grid) (s t : Cell) (closed : Finset Cell)
    (cur : PathNode) (hcur : NodeInv gr s t cur) :
    ∀ (offs : List (ℤ × ℤ)), (∀ o ∈ offs, o ∈ neighborOffsets) →
    ∀ ol, OpenInv gr s t closed ol →
    OpenInv gr s t closed (offs.foldl (processNeighbor gr closed t.1 t.2 cur) ol) ∧
    ∀ n ∈ ol, ∃ m ∈ offs.foldl (processNeighbor gr closed t.1 t.2 cur) ol,
      cellOf m = cellOf n ∧ m.gval ≤ n.gval
  | [], _, ol, hol => ⟨hol, fun n hn => ⟨n, hn, rfl, le_rfl⟩⟩
  | o :: os, hoffs, ol, hol => by
      rw [List.foldl_cons]
      have h1 := processNeighbor_pres gr s t closed cur hcur o
        (hoffs o (List.mem_cons_self _ _)) ol hol
      have h2 := expand_pres gr s t closed cur hcur os
        (fun x hx => hoffs x (List.mem_cons_of_mem o hx)) _ h1.1
      refine ⟨h2.1, ?_⟩
      intro n hn
      obtain ⟨m1, hm1, hc1, hg1⟩ := h1.2 n hn
      obtain ⟨m2, hm2, hc2, hg2⟩ := h2.2 m1 hm1
      exact ⟨m2, hm2, hc2.trans hc1, le_trans hg2 hg1⟩

/-- Every neighbor of the expanded node that passes the checks ends up
represented in the open list with `g`-cost at most `current.g + 1`. -/
theorem expand_cover (gr : Grid) (s t : Cell) (closed : Finset Cell)
    (cur : PathNode) (hcur : NodeInv gr s t cur) :
    ∀ (offs : List (ℤ × ℤ)), (∀ o ∈ offs, o ∈ neighborOffsets) →
    ∀ ol, OpenInv gr s t closed ol →
    ∀ off ∈ offs,
      inBounds (cur.xval + off.1, cur.zval + off.2) →
      gr (cur.xval + off.1, cur.zval + off.2) = true →
      (cur.xval + off.1, cur.zval + off.2) ∉ closed →
      ∃ m ∈ offs.foldl (processNeighbor gr closed t.1 t.2 cur) ol,
        cellOf m = (cur.xval + off.1, cur.zval + off.2) ∧ m.gval ≤ cur.gval + 1
  | [], _, _, _, _, hoff, _, _, _ => by simp at hoff
  | o :: os, hoffs, ol, hol, off, hoff, hb, hw, hc => by
      rw [List.foldl_cons]
      have h1 := processNeighbor_pres gr s t closed cur hcur o
        (hoffs o (List.mem_cons_self _ _)) ol hol
      rcases List.mem_cons.mp hoff with rfl | hoff
      · obtain ⟨m, hm, hcell, hg⟩ :=
          processNeighbor_cover gr t closed cur off ol ⟨hb, hw, hc⟩
        have h2 := expand_pres gr s t closed cur hcur os
          (fun x hx => hoffs x (List.mem_cons_of_mem off hx)) _ h1.1
        obtain ⟨m2, hm2, hc2, hg2⟩ := h2.2 m hm
        exact ⟨m2, hm2, hc2.trans hcell, le_trans hg2 hg⟩
      · exact expand_cover gr s t closed cur hcur os
          (fun x hx => hoffs x (List.mem_cons_of_mem o hx)) _ h1.1 off hoff hb hw hc

theorem ReachN.reach {gr : Grid} {s t : Cell} {n : ℕ} (h : ReachN gr s t n) :
    Reach gr s t := by
  obtain ⟨p, hp, -⟩ := h
  exact ⟨p, hp⟩

theorem adj4_exists_offset {u w : Cell} (h : adj4 u w) :
    ∃ off ∈ neighborOffsets, w = (u.1 + off.1, u.2 + off.2) := by
  unfold adj4 at h
  have hcases : (w.1 - u.1 = 0 ∧ (w.2 - u.2 = 1 ∨ w.2 - u.2 = -1)) ∨
      (w.2 - u.2 = 0 ∧ (w.1 - u.1 = 1 ∨ w.1 - u.1 = -1)) := by omega
  rcases hcases with ⟨h1, h2 | h2⟩ | ⟨h1, h2 | h2⟩
  · exact ⟨(0, 1), by simp [neighborOffsets], by
      rcases w with ⟨a, b⟩; simp; omega⟩
  · exact ⟨(0, -1), by simp [neighborOffsets], by
      rcases w with ⟨a, b⟩; simp; omega⟩
  · exact ⟨(1, 0), by simp [neighborOffsets], by
      rcases w with ⟨a, b⟩; simp; omega⟩
  · exact ⟨(-1, 0), by simp [neighborOffsets], by
      rcases w with ⟨a, b⟩; simp; omega⟩

/-- When the loop selects an open node of minimal `f`-cost, its `g`-cost
is the true distance from the start cell: the classic A* argument from
admissibility and consistency of the Manhattan heuristic. -/
theorem popMin_isDist (gr : Grid) (s t : Cell) (ol : List PathNode)
    (closed : Finset Cell) (inv : LoopInv gr s t ol closed)
    (cur : PathNode) (hcur : cur ∈ ol)
    (hmin : ∀ m ∈ ol, cur.fval ≤ m.fval) :
    IsDist gr s (cellOf cur) cur.gval := by
  have hinv := inv.nodes cur hcur
  have hreach : ReachN gr s (cellOf cur) cur.gval := nodeInv_reachN hinv
  obtain ⟨d, hd⟩ := exists_isDist hreach.reach
  have hdle : d ≤ cur.gval := hd.2 _ hreach
  have hd_eq : d = cur.gval := by
    by_contra hne
    have hlt : d < cur.gval := lt_of_le_of_ne hdle hne
    obtain ⟨n, hn, hn_d, dnu, hdnu, hsum⟩ :=
      inv.frontier (cellOf cur) d hd (inv.notClosed cur hcur)
    have hfn := nodeInv_f n (inv.nodes n hn)
    have hfc := nodeInv_f cur hinv
    have hmanh_n : n.hval ≤ manhattan (cellOf n) t := nodeInv_h_le n (inv.nodes n hn)
    have htri : manhattan (cellOf n) t ≤ dnu + manhattan (cellOf cur) t := by
      have h1 := manhattan_triangle (cellOf n) (cellOf cur) t
      have h2 := hdnu.1.manhattan_le
      omega
    have hcur_h : cur.hval = manhattan (cellOf cur) t := by
      rcases hpar : cur.parent with _ | p
      · have hg0 := nodeInv_parent_none_g cur hinv hpar
        omega
      · exact nodeInv_parent_some_h cur hinv (by simp [hpar])
    have hle := hmin n hn
    omega
  rw [← hd_eq]
  exact hd

/-- Frontier restoration along a shortest path that passed through closed
cells: walk forward until the first open cell; the escape invariant
supplies the open-list witness there. -/
theorem frontier_walk (gr : Grid) (s t u : Cell) (closed1 : Finset Cell)
    (ol2 : List PathNode)
    (hnodes2 : ∀ n ∈ ol2, NodeInv gr s t n)
    (hwit : ∀ c ∈ closed1, ∀ dc, IsDist gr s c dc → ∀ w, stepTo gr c w →
      w ∉ closed1 → ∃ m ∈ ol2, cellOf m = w ∧ m.gval ≤ dc + 1)
    (hu : u ∉ closed1) :
    ∀ (dcu : ℕ) (c : Cell) (dc du : ℕ), c ∈ closed1 →
      IsDist gr s c dc → IsDist gr c u dcu → IsDist gr s u du → dc + dcu = du →
      ∃ n ∈ ol2, IsDist gr s (cellOf n) n.gval ∧
        ∃ dnu, IsDist gr (cellOf n) u dnu ∧ n.gval + dnu = du := by
  intro dcu
  induction dcu with
  | zero =>
      intro c dc du hc hdc hdcu hdu hsum
      exact absurd ((reachN_zero_eq hdcu.1) ▸ hc) hu
  | succ k ih =>
      intro c dc du hc hdc hdcu hdu hsum
      have hne : u ≠ c := fun he => hu (he ▸ hc)
      obtain ⟨w, hw, hsw, dwu, hwu, hsum2⟩ :=
        isDist_step_decomp hdc hdcu hdu hsum hne
      by_cases hwc : w ∈ closed1
      · have hk : dwu = k := by omega
        subst hk
        exact ih w (dc + 1) du hwc hsw hwu hdu (by omega)
      · obtain ⟨m, hm, hcm, hgm⟩ := hwit c hc dc hdc w hw hwc
        have hreach : ReachN gr s (cellOf m) m.gval := nodeInv_reachN (hnodes2 m hm)
        have hge : dc + 1 ≤ m.gval := by
          refine hsw.2 _ ?_
          rw [← hcm]
          exact hreach
        have hgm_eq : m.gval = dc + 1 := le_antisymm hgm hge
        refine ⟨m, hm, ?_, dwu, ?_, by omega⟩
        · rw [hcm, hgm_eq]
          exact hsw
        · rw [hcm]
          exact hwu

set_option maxRecDepth 8000 in
/-- One full iteration of the search loop (pop the minimum-`f` node, close
its cell, expand its neighbors) preserves the loop invariant. -/
theorem loopInv_step (gr : Grid) (s t : Cell) (ol : List PathNode)
    (closed : Finset Cell) (inv : LoopInv gr s t ol closed)
    (li : ℕ) (hli : li < ol.length)
    (hmin : ∀ m ∈ ol, (ol.getD li default).fval ≤ m.fval)
    (hng : cellOf (ol.getD li default) ≠ t) :
    LoopInv gr s t
      (neighborOffsets.foldl
        (processNeighbor gr (insert (cellOf (ol.getD li default)) closed) t.1 t.2
          (ol.getD li default))
        (ol.eraseIdx li))
      (insert (cellOf (ol.getD li default)) closed) := by
  set cur := ol.getD li default with hcur_def
  have hcur_mem : cur ∈ ol := getD_mem ol li hli
  have hcur_inv : NodeInv gr s t cur := inv.nodes cur hcur_mem
  have hpop : IsDist gr s (cellOf cur) cur.gval :=
    popMin_isDist gr s t ol closed inv cur hcur_mem hmin
  set closed1 := insert (cellOf cur) closed with hclosed1_def
  set ol1 := ol.eraseIdx li with hol1_def
  have h_ol1_sub : ∀ x ∈ ol1, x ∈ ol := fun x hx => List.eraseIdx_subset ol li hx
  have h_ol1_ne : ∀ x ∈ ol1, cellOf x ≠ cellOf cur := eraseIdx_cell_ne ol li hli inv.nodup
  have h_ol1_open : OpenInv gr s t closed1 ol1 := by
    refine ⟨fun n hn => inv.nodes n (h_ol1_sub n hn), ?_, ?_,
      fun n hn => inv.olBounded n (h_ol1_sub n hn)⟩
    · rw [hol1_def, map_eraseIdx_cellOf]
      exact (List.eraseIdx_sublist _ li).nodup inv.nodup
    · intro n hn
      rw [hclosed1_def, Finset.mem_insert]
      push_neg
      exact ⟨h_ol1_ne n hn, inv.notClosed n (h_ol1_sub n hn)⟩
  have h_keep : ∀ x ∈ ol, cellOf x ≠ cellOf cur → x ∈ ol1 := by
    intro x hx hne
    refine mem_eraseIdx_of_ne ol li hli x hx ?_
    intro he
    rw [he] at hne
    exact hne rfl
  have hexp := expand_pres gr s t closed1 cur hcur_inv neighborOffsets
    (fun o ho => ho) ol1 h_ol1_open
  set ol2 := neighborOffsets.foldl (processNeighbor gr closed1 t.1 t.2 cur) ol1
    with hol2_def
  have hcov : ∀ w, stepTo gr (cellOf cur) w → w ∉ closed1 →
      ∃ m ∈ ol2, cellOf m = w ∧ m.gval ≤ cur.gval + 1 := by
    intro w hw hwc
    obtain ⟨off, hoff, hw_eq⟩ := adj4_exists_offset hw.2.2
    have hcell_eq : (cur.xval + off.1, cur.zval + off.2) = w := by
      rw [hw_eq]
      rfl
    have := expand_cover gr s t closed1 cur hcur_inv neighborOffsets
      (fun o ho => ho) ol1 h_ol1_open off hoff
      (by rw [hcell_eq]; exact hw.1) (by rw [hcell_eq]; exact hw.2.1)
      (by rw [hcell_eq]; exact hwc)
    rw [hcell_eq] at this
    exact this
  have hwit : ∀ c ∈ closed1, ∀ dc, IsDist gr s c dc → ∀ w, stepTo gr c w →
      w ∉ closed1 → ∃ m ∈ ol2, cellOf m = w ∧ m.gval ≤ dc + 1 := by
    intro c hc dc hdc w hw hwc
    rcases Finset.mem_insert.mp hc with rfl | hc
    · have hdc_eq : dc = cur.gval := hdc.unique hpop
      obtain ⟨m, hm, hcm, hgm⟩ := hcov w hw hwc
      exact ⟨m, hm, hcm, by omega⟩
    · rcases inv.escape c hc w hw with hwcl | ⟨n, hn, hcn, hbound⟩
      · exact absurd (Finset.mem_insert_of_mem hwcl) hwc
      · have hcell : cellOf n ≠ cellOf cur := by
          rw [hcn]
          intro he
          exact hwc (he ▸ Finset.mem_insert_self _ _)
        have hn1 : n ∈ ol1 := h_keep n hn hcell
        obtain ⟨m, hm, hcm, hgm⟩ := hexp.2 n hn1
        exact ⟨m, hm, hcm.trans hcn, le_trans hgm (hbound dc hdc)⟩
  refine ⟨hexp.1.1, hexp.1.2.1, hexp.1.2.2.1, hexp.1.2.2.2, ?_, ?_, ?_, ?_⟩
  · intro c hc
    rcases Finset.mem_insert.mp hc with rfl | hc
    · exact inv.olBounded cur hcur_mem
    · exact inv.closedBounded hc
  · intro h
    rcases Finset.mem_insert.mp h with he | h
    · exact hng he.symm
    · exact inv.goalOpen h
  · intro u du hdu hu1
    have hu_notcl : u ∉ closed := fun h => hu1 (Finset.mem_insert_of_mem h)
    obtain ⟨n, hn, hn_d, dnu, hdnu, hsum⟩ := inv.frontier u du hdu hu_notcl
    by_cases hcell : cellOf n = cellOf cur
    · refine frontier_walk gr s t u closed1 ol2 hexp.1.1 hwit hu1 dnu
        (cellOf cur) n.gval du (Finset.mem_insert_self _ _) ?_ ?_ hdu ?_
      · rw [← hcell]
        exact hn_d
      · rw [← hcell]
        exact hdnu
      · exact hsum
    · have hn1 : n ∈ ol1 := h_keep n hn hcell
      obtain ⟨m, hm, hcm, hgm⟩ := hexp.2 n hn1
      have hreach_m : ReachN gr s (cellOf m) m.gval := nodeInv_reachN (hexp.1.1 m hm)
      have hgm_eq : m.gval = n.gval := by
        refine le_antisymm hgm ?_
        refine hn_d.2 _ ?_
        rw [← hcm]
        exact hreach_m
      refine ⟨m, hm, ?_, dnu, ?_, ?_⟩
      · rw [hcm, hgm_eq]
        exact hn_d
      · rw [hcm]
        exact hdnu
      · omega
  · intro c hc w hw
    rcases Finset.mem_insert.mp hc with rfl | hc
    · by_cases hwc : w ∈ closed1
      · exact Or.inl hwc
      · obtain ⟨m, hm, hcm, hgm⟩ := hcov w hw hwc
        refine Or.inr ⟨m, hm, hcm, ?_⟩
        intro dc hdc
        have hdc_eq : dc = cur.gval := hdc.unique hpop
        omega
    · rcases inv.escape c hc w hw with hwcl | ⟨n, hn, hcn, hbound⟩
      · exact Or.inl (Finset.mem_insert_of_mem hwcl)
      · by_cases hcell : cellOf n = cellOf cur
        · refine Or.inl ?_
          rw [← hcn, hcell]
          exact Finset.mem_insert_self _ _
        · have hn1 : n ∈ ol1 := h_keep n hn hcell
          obtain ⟨m, hm, hcm, hgm⟩ := hexp.2 n hn1
          exact Or.inr ⟨m, hm, hcm.trans hcn,
            fun dc hdc => le_trans hgm (hbound dc hdc)⟩

/-- Full correctness of the search loop: with the invariant and enough
fuel, the loop returns the reversed parent chain of a goal node whose
`g`-cost is the exact distance when the goal is reachable, and `[]` when it
is not; any non-empty return is such a reversed chain. -/
theorem astarLoop_spec (gr : Grid) (s t : Cell) :
    ∀ (fuel : ℕ) (ol : List PathNode) (closed : Finset Cell),
    LoopInv gr s t ol closed → 3600 < fuel + closed.card →
    (∀ d, IsDist gr s t d →
      ∃ nd, NodeInv gr s t nd ∧ cellOf nd = t ∧ nd.gval = d ∧
        astarLoop gr t.1 t.2 fuel ol closed = (collect nd).reverse) ∧
    (¬ Reach gr s t → astarLoop gr t.1 t.2 fuel ol closed = []) ∧
    (astarLoop gr t.1 t.2 fuel ol closed ≠ [] →
      ∃ nd, NodeInv gr s t nd ∧ cellOf nd = t ∧
        astarLoop gr t.1 t.2 fuel ol closed = (collect nd).reverse) := by
  intro fuel
  induction fuel with
  | zero =>
      intro ol closed inv hfuel
      exfalso
      have hcard := Finset.card_le_card inv.closedBounded
      rw [card_boundedCells] at hcard
      omega
  | succ fuel ih =>
      intro ol closed inv hfuel
      match ol with
      | [] =>
          refine ⟨?_, fun _ => rfl, fun h => absurd rfl h⟩
          intro d hd
          obtain ⟨n, hn, -⟩ := inv.frontier t d hd inv.goalOpen
          simp at hn
      | n0 :: rest =>
          obtain ⟨hli, hmin⟩ := lowestIndex_spec n0 rest
          have hcur_mem : (n0 :: rest).getD (lowestIndex (n0 :: rest)) default ∈ n0 :: rest :=
            getD_mem _ _ hli
          set cur := (n0 :: rest).getD (lowestIndex (n0 :: rest)) default with hcd
          have hcur_inv : NodeInv gr s t cur := inv.nodes cur hcur_mem
          have hunfold : astarLoop gr t.1 t.2 (fuel + 1) (n0 :: rest) closed =
              if cur.xval = t.1 ∧ cur.zval = t.2 then (collect cur).reverse
              else astarLoop gr t.1 t.2 fuel
                (neighborOffsets.foldl
                  (processNeighbor gr (insert (cellOf cur) closed) t.1 t.2 cur)
                  ((n0 :: rest).eraseIdx (lowestIndex (n0 :: rest))))
                (insert (cellOf cur) closed) := rfl
          by_cases hgoal : cur.xval = t.1 ∧ cur.zval = t.2
          · have hcell : cellOf cur = t := by
              unfold cellOf
              rw [hgoal.1, hgoal.2]
            have hpop : IsDist gr s (cellOf cur) cur.gval :=
              popMin_isDist gr s t (n0 :: rest) closed inv cur hcur_mem hmin
            rw [hunfold, if_pos hgoal]
            refine ⟨?_, ?_, ?_⟩
            · intro d hd
              have : cur.gval = d := by
                rw [hcell] at hpop
                exact hpop.unique hd
              exact ⟨cur, hcur_inv, hcell, this, rfl⟩
            · intro hno
              exfalso
              have := nodeInv_reachN hcur_inv
              rw [hcell] at this
              exact hno this.reach
            · intro _
              exact ⟨cur, hcur_inv, hcell, rfl⟩
          · have hne : cellOf cur ≠ t := by
              intro he
              rcases t with ⟨ta, tb⟩
              refine hgoal ⟨?_, ?_⟩
              · exact congrArg Prod.fst he
              · exact congrArg Prod.snd he
            have inv2 := loopInv_step gr s t (n0 :: rest) closed inv
              (lowestIndex (n0 :: rest)) hli hmin hne
            have hcc_notin : cellOf cur ∉ closed := inv.notClosed cur hcur_mem
            have hcard : (insert (cellOf cur) closed).card = closed.card + 1 :=
              Finset.card_insert_of_not_mem hcc_notin
            have hfuel2 : 3600 < fuel + (insert (cellOf cur) closed).card := by
              rw [hcard]
              omega
            have := ih _ _ inv2 hfuel2
            rw [hunfold, if_neg hgoal]
            exact this

/-! ## From `findPath` to the search loop -/

/-- Converting a cell's center back to a grid cell is the identity. -/
theorem worldCell_cellToWorld (c : Cell) : worldCell (cellToWorld c) = c := by
  unfold worldCell worldCellX worldCellZ cellToWorld
  have h1 : ((c.1 : ℚ) * gridSize - gridOffsetX + gridSize / 2 + gridOffsetX) / gridSize
      = (c.1 : ℚ) + 1/2 := by
    unfold gridSize gridOffsetX
    ring
  have h2 : ((c.2 : ℚ) * gridSize - gridOffsetZ + gridSize / 2 + gridOffsetZ) / gridSize
      = (c.2 : ℚ) + 1/2 := by
    unfold gridSize gridOffsetZ
    ring
  have hhalf : (⌊(1/2 : ℚ)⌋ : ℤ) = 0 := by
    rw [Int.floor_eq_zero_iff]
    constructor <;> norm_num
  have h3 : (⌊(c.1 : ℚ) + 1/2⌋ : ℤ) = c.1 := by
    rw [add_comm, Int.floor_add_int, hhalf]
    omega
  have h4 : (⌊(c.2 : ℚ) + 1/2⌋ : ℤ) = c.2 := by
    rw [add_comm, Int.floor_add_int, hhalf]
    omega
  dsimp only
  rw [h1, h2, h3, h4]

/-- Every cell a chain of admissible moves reaches is walkable. -/
theorem chain_targets_walkable {gr : Grid} {a : Cell} {l : List Cell}
    (h : List.Chain (stepTo gr) a l) : ∀ c ∈ l, walkableCell gr c := by
  induction h with
  | nil => simp
  | cons hstep htail ih =>
      intro c hc
      rcases List.mem_cons.mp hc with rfl | hc
      · exact ⟨hstep.1, hstep.2.1⟩
      · exact ih c hc

/-- On a path from a walkable start, every cell is walkable. -/
theorem validPath_all_walkable {gr : Grid} {s t : Cell} {p : List Cell}
    (h : ValidPath gr s t p) (hsw : walkableCell gr s) :
    ∀ c ∈ p, walkableCell gr c := by
  obtain ⟨hh, -, hc⟩ := h
  match p, hh with
  | a :: l, hh =>
    have ha : a = s := by simpa using hh
    subst ha
    intro c hcm
    rcases List.mem_cons.mp hcm with rfl | hcm
    · exact hsw
    · exact chain_targets_walkable hc c hcm

/-- Consecutive cells of a valid path are 4-adjacent. -/
theorem validPath_chain_adj {gr : Grid} {s t : Cell} {p : List Cell}
    (h : ValidPath gr s t p) : List.Chain' (adj4) p :=
  List.Chain'.imp (fun _ _ hs => hs.2.2) h.2.2

set_option maxRecDepth 8000 in
/-- The invariant holds at loop entry: the open list is the single start
node and nothing is closed. -/
theorem initial_loopInv (gr : Grid) (s t : Cell) (hsb : inBounds s) :
    LoopInv gr s t [.mk s.1 s.2 0 0 0 none] ∅ := by
  have hcell : cellOf (PathNode.mk s.1 s.2 0 0 0 none) = s := by
    unfold cellOf PathNode.xval PathNode.zval
    rfl
  refine ⟨?_, by simp, by simp, ?_, by simp, by simp, ?_, by simp⟩
  · intro n hn
    simp at hn
    subst hn
    exact ⟨hcell, rfl, rfl, rfl⟩
  · intro n hn
    simp at hn
    subst hn
    rw [hcell]
    exact mem_boundedCells.mpr hsb
  · intro u du hdu _
    refine ⟨.mk s.1 s.2 0 0 0 none, by simp, ?_, du, ?_, ?_⟩
    · rw [hcell]
      exact isDist_self gr s
    · rw [hcell]
      exact hdu
    · simp [PathNode.gval]

/-- When all three precondition checks pass, `findPath` runs the search
loop from the start node. -/
theorem findPath_eq_loop (gr : Grid) (start e : Vec3)
    (hsb : inBounds (worldCell start)) (heb : inBounds (worldCell e))
    (hew : gr (worldCell e) = true) :
    findPath gr start e =
      astarLoop gr (worldCell e).1 (worldCell e).2 (60 * 60 + 1)
        [.mk (worldCell start).1 (worldCell start).2 0 0 0 none] ∅ := by
  have hsb' : 0 ≤ worldCellX start ∧ worldCellX start < gridWidth ∧
      0 ≤ worldCellZ start ∧ worldCellZ start < gridDepth := hsb
  have heb' : 0 ≤ worldCellX e ∧ worldCellX e < gridWidth ∧
      0 ≤ worldCellZ e ∧ worldCellZ e < gridDepth := heb
  have hew' : gr (worldCellX e, worldCellZ e) = true := hew
  unfold findPath
  dsimp only
  rw [if_neg (by omega), if_neg (by omega), if_neg (by simp [hew'])]
  rfl

/-- Early-exit behavior of `findPath`: an out-of-bounds endpoint or a
blocked goal cell yields the empty list. -/
theorem findPath_checks (gr : Grid) (start e : Vec3)
    (h : ¬ inBounds (worldCell start) ∨ ¬ inBounds (worldCell e) ∨
      gr (worldCell e) = false) :
    findPath gr start e = [] := by
  unfold findPath
  dsimp only
  split_ifs with a b c
  · rfl
  · rfl
  · rfl
  · exfalso
    rcases h with h | h | h
    · have h' : ¬ (0 ≤ worldCellX start ∧ worldCellX start < gridWidth ∧
          0 ≤ worldCellZ start ∧ worldCellZ start < gridDepth) := h
      omega
    · have h' : ¬ (0 ≤ worldCellX e ∧ worldCellX e < gridWidth ∧
          0 ≤ worldCellZ e ∧ worldCellZ e < gridDepth) := h
      omega
    · exact c h

/-! ## The pathfinding claims -/

/-- Claim C1: for every start and goal world position whose grid cells are
both walkable and grid-connected, `findPath` returns a path whose cell
count equals the length (cell count) of a true shortest 4-directional path
between those cells on the same grid. -/
theorem path_optimal (gr : Grid) (start e : Vec3)
    (hs : walkableCell gr (worldCell start)) (he : walkableCell gr (worldCell e))
    (hconn : Reach gr (worldCell start) (worldCell e)) :
    ∃ k, IsShortestPathLen gr (worldCell start) (worldCell e) k ∧
      (findPath gr start e).length = k := by
  obtain ⟨d, hd⟩ := exists_isDist hconn
  have hspec := astarLoop_spec gr (worldCell start) (worldCell e) (60 * 60 + 1)
    [.mk (worldCell start).1 (worldCell start).2 0 0 0 none] ∅
    (initial_loopInv gr _ _ hs.1) (by simp)
  obtain ⟨nd, hnd, hcell, hg, hr⟩ := hspec.1 d hd
  refine ⟨d + 1, hd.shortestPathLen, ?_⟩
  rw [findPath_eq_loop gr start e hs.1 he.1 he.2, hr, collect_reverse_eq,
    List.length_map, trace_length nd hnd, hg]

/-- Claim C2: for every start and goal world position whose grid cells are
both walkable and grid-connected, every waypoint `findPath` returns maps
to a walkable grid cell, and consecutive waypoints map to 4-directionally
adjacent grid cells. -/
theorem path_valid (gr : Grid) (start e : Vec3)
    (hs : walkableCell gr (worldCell start)) (he : walkableCell gr (worldCell e))
    (hconn : Reach gr (worldCell start) (worldCell e)) :
    (∀ v ∈ findPath gr start e, walkableCell gr (worldCell v)) ∧
    List.Chain' (fun a b => adj4 (worldCell a) (worldCell b)) (findPath gr start e) := by
  obtain ⟨d, hd⟩ := exists_isDist hconn
  have hspec := astarLoop_spec gr (worldCell start) (worldCell e) (60 * 60 + 1)
    [.mk (worldCell start).1 (worldCell start).2 0 0 0 none] ∅
    (initial_loopInv gr _ _ hs.1) (by simp)
  obtain ⟨nd, hnd, hcell, hg, hr⟩ := hspec.1 d hd
  have hfp : findPath gr start e = (trace nd).map cellToWorld := by
    rw [findPath_eq_loop gr start e hs.1 he.1 he.2, hr, collect_reverse_eq]
  have hvp := trace_validPath nd hnd
  constructor
  · intro v hv
    rw [hfp] at hv
    obtain ⟨c, hc, rfl⟩ := List.mem_map.mp hv
    rw [worldCell_cellToWorld]
    exact validPath_all_walkable hvp hs c hc
  · rw [hfp, List.chain'_map]
    refine List.Chain'.imp ?_ (validPath_chain_adj hvp)
    intro a b hab
    rw [worldCell_cellToWorld, worldCell_cellToWorld]
    exact hab

/-- Claim C4: whenever the start or goal maps to an out-of-bounds grid
cell, or the goal cell is not walkable, or the goal cell is disconnected
from the start cell, `findPath` returns the empty list (it is a total
function — no exception is possible in the model). -/
theorem path_unreachable_empty (gr : Grid) (start e : Vec3)
    (h : ¬ inBounds (worldCell start) ∨ ¬ inBounds (worldCell e) ∨
      gr (worldCell e) = false ∨ ¬ Reach gr (worldCell start) (worldCell e)) :
    findPath gr start e = [] := by
  rcases h with h | h | h | h
  · exact findPath_checks gr start e (Or.inl h)
  · exact findPath_checks gr start e (Or.inr (Or.inl h))
  · exact findPath_checks gr start e (Or.inr (Or.inr h))
  · by_cases h1 : inBounds (worldCell start)
    · by_cases h2 : inBounds (worldCell e)
      · by_cases h3 : gr (worldCell e) = true
        · rw [findPath_eq_loop gr start e h1 h2 h3]
          exact (astarLoop_spec gr (worldCell start) (worldCell e) (60 * 60 + 1)
            [.mk (worldCell start).1 (worldCell start).2 0 0 0 none] ∅
            (initial_loopInv gr _ _ h1) (by simp)).2.1 h
        · refine findPath_checks gr start e (Or.inr (Or.inr ?_))
          simp at h3
          exact h3
      · exact findPath_checks gr start e (Or.inr (Or.inl h2))
    · exact findPath_checks gr start e (Or.inl h1)

/-- Counterexample for claim C8: a successful `findPath` call whose first
waypoint is the center of the literal start cell, not of its successor —
the reconstruction includes the start cell. -/
theorem path_start_included_counterexample :
    findPath gridT ⟨-57/4, 0, -57/4⟩ ⟨-55/4, 0, -57/4⟩ =
      [cellToWorld (1, 1), cellToWorld (2, 1)] ∧
    worldCell ⟨-57/4, 0, -57/4⟩ = (1, 1) ∧
    cellToWorld (1, 1) ≠ cellToWorld (2, 1) :=
  of_decide_eq_true (by with_unfolding_all rfl)

/-- Claim C8 (amended): for every successful `findPath` call, the
reconstructed waypoint list includes the literal start cell: its first
element is the start cell's center world position (plus the fixed vertical
offset), not the literal input start point. -/
theorem path_head_start (gr : Grid) (start e : Vec3)
    (h : findPath gr start e ≠ []) :
    (findPath gr start e).head? = some (cellToWorld (worldCell start)) := by
  by_cases h1 : inBounds (worldCell start)
  · by_cases h2 : inBounds (worldCell e)
    · by_cases h3 : gr (worldCell e) = true
      · have heq := findPath_eq_loop gr start e h1 h2 h3
        have hspec := astarLoop_spec gr (worldCell start) (worldCell e) (60 * 60 + 1)
          [.mk (worldCell start).1 (worldCell start).2 0 0 0 none] ∅
          (initial_loopInv gr _ _ h1) (by simp)
        rw [heq] at h ⊢
        obtain ⟨nd, hnd, hcell, hr⟩ := hspec.2.2 h
        rw [hr, collect_reverse_eq, List.head?_map, trace_head hnd]
        rfl
      · refine absurd (findPath_checks gr start e (Or.inr (Or.inr ?_))) h
        simp at h3
        exact h3
    · exact absurd (findPath_checks gr start e (Or.inr (Or.inl h2))) h
  · exact absurd (findPath_checks gr start e (Or.inl h1)) h

/-- Claim C10: `findPath` never checks the start cell's walkability — for
every in-bounds start position whose grid cell is not walkable and every
walkable goal cell reachable through walkable cells 4-adjacent to the
start cell, it returns a non-empty path whose first waypoint is the center
of the unwalkable start cell. -/
theorem start_unwalkable_path (gr : Grid) (start e : Vec3)
    (hsb : inBounds (worldCell start)) (hsw : gr (worldCell start) = false)
    (he : walkableCell gr (worldCell e))
    (hconn : Reach gr (worldCell start) (worldCell e)) :
    findPath gr start e ≠ [] ∧
      (findPath gr start e).head? = some (cellToWorld (worldCell start)) := by
  obtain ⟨d, hd⟩ := exists_isDist hconn
  have hspec := astarLoop_spec gr (worldCell start) (worldCell e) (60 * 60 + 1)
    [.mk (worldCell start).1 (worldCell start).2 0 0 0 none] ∅
    (initial_loopInv gr _ _ hsb) (by simp)
  obtain ⟨nd, hnd, hcell, hg, hr⟩ := hspec.1 d hd
  have hfp : findPath gr start e = (trace nd).map cellToWorld := by
    rw [findPath_eq_loop gr start e hsb he.1 he.2, hr, collect_reverse_eq]
  constructor
  · rw [hfp]
    intro hmap
    exact trace_ne_nil nd (List.map_eq_nil.mp hmap)
  · rw [hfp, List.head?_map, trace_head hnd]
    rfl

/-- Concrete grid-connectivity of the corridor grid's end cells. -/
theorem reachT : Reach gridT (worldCell ⟨-57/4, 0, -57/4⟩)
    (worldCell ⟨-53/4, 0, -57/4⟩) := by
  refine ⟨[(1, 1), (2, 1), (3, 1)], ?_, ?_, ?_⟩
  · exact of_decide_eq_true (by with_unfolding_all rfl)
  · exact of_decide_eq_true (by with_unfolding_all rfl)
  · show List.Chain (stepTo gridT) (1, 1) [(2, 1), (3, 1)]
    exact List.Chain.cons (of_decide_eq_true (by with_unfolding_all rfl))
      (List.Chain.cons (of_decide_eq_true (by with_unfolding_all rfl)) List.Chain.nil)

/-- Concrete grid-connectivity from the blocked start cell of `gridU` to
its walkable neighbor. -/
theorem reachU : Reach gridU (worldCell ⟨-57/4, 0, -57/4⟩)
    (worldCell ⟨-55/4, 0, -57/4⟩) := by
  refine ⟨[(1, 1), (2, 1)], ?_, ?_, ?_⟩
  · exact of_decide_eq_true (by with_unfolding_all rfl)
  · exact of_decide_eq_true (by with_unfolding_all rfl)
  · show List.Chain (stepTo gridU) (1, 1) [(2, 1)]
    exact List.Chain.cons (of_decide_eq_true (by with_unfolding_all rfl)) List.Chain.nil

/-- Witness for `path_optimal` on the concrete corridor grid: both cells
walkable and connected, and the returned cell count matches. -/
theorem path_optimal_witness :
    walkableCell gridT (worldCell ⟨-57/4, 0, -57/4⟩) ∧
    walkableCell gridT (worldCell ⟨-53/4, 0, -57/4⟩) ∧
    ∃ k, IsShortestPathLen gridT (worldCell ⟨-57/4, 0, -57/4⟩)
        (worldCell ⟨-53/4, 0, -57/4⟩) k ∧
      (findPath gridT ⟨-57/4, 0, -57/4⟩ ⟨-53/4, 0, -57/4⟩).length = k :=
  ⟨of_decide_eq_true (by with_unfolding_all rfl),
   of_decide_eq_true (by with_unfolding_all rfl),
   path_optimal gridT ⟨-57/4, 0, -57/4⟩ ⟨-53/4, 0, -57/4⟩
     (of_decide_eq_true (by with_unfolding_all rfl))
     (of_decide_eq_true (by with_unfolding_all rfl))
     reachT⟩

/-- Witness for `path_valid` on the concrete corridor grid. -/
theorem path_valid_witness :
    walkableCell gridT (worldCell ⟨-57/4, 0, -57/4⟩) ∧
    ((∀ v ∈ findPath gridT ⟨-57/4, 0, -57/4⟩ ⟨-53/4, 0, -57/4⟩,
        walkableCell gridT (worldCell v)) ∧
      List.Chain' (fun a b => adj4 (worldCell a) (worldCell b))
        (findPath gridT ⟨-57/4, 0, -57/4⟩ ⟨-53/4, 0, -57/4⟩)) :=
  ⟨of_decide_eq_true (by with_unfolding_all rfl),
   path_valid gridT ⟨-57/4, 0, -57/4⟩ ⟨-53/4, 0, -57/4⟩
     (of_decide_eq_true (by with_unfolding_all rfl))
     (of_decide_eq_true (by with_unfolding_all rfl))
     reachT⟩

/-- Witness for `path_unreachable_empty` at a blocked goal cell. -/
theorem path_unreachable_empty_witness :
    gridT (worldCell ⟨-57/4, 0, -55/4⟩) = false ∧
    findPath gridT ⟨-57/4, 0, -57/4⟩ ⟨-57/4, 0, -55/4⟩ = [] :=
  ⟨of_decide_eq_true (by with_unfolding_all rfl),
   path_unreachable_empty gridT ⟨-57/4, 0, -57/4⟩ ⟨-57/4, 0, -55/4⟩
     (Or.inr (Or.inr (Or.inl (of_decide_eq_true (by with_unfolding_all rfl)))))⟩

/-- Witness for `path_head_start` on a concrete successful call. -/
theorem path_head_start_witness :
    findPath gridT ⟨-57/4, 0, -57/4⟩ ⟨-55/4, 0, -57/4⟩ ≠ [] ∧
    (findPath gridT ⟨-57/4, 0, -57/4⟩ ⟨-55/4, 0, -57/4⟩).head? =
      some (cellToWorld (worldCell ⟨-57/4, 0, -57/4⟩)) :=
  ⟨of_decide_eq_true (by with_unfolding_all rfl),
   path_head_start gridT ⟨-57/4, 0, -57/4⟩ ⟨-55/4, 0, -57/4⟩
     (of_decide_eq_true (by with_unfolding_all rfl))⟩

/-- Witness for `start_unwalkable_path`: a start in an unwalkable cell
adjacent to the walkable goal cell. -/
theorem start_unwalkable_path_witness :
    inBounds (worldCell ⟨-57/4, 0, -57/4⟩) ∧
    gridU (worldCell ⟨-57/4, 0, -57/4⟩) = false ∧
    walkableCell gridU (worldCell ⟨-55/4, 0, -57/4⟩) ∧
    (findPath gridU ⟨-57/4, 0, -57/4⟩ ⟨-55/4, 0, -57/4⟩ ≠ [] ∧
      (findPath gridU ⟨-57/4, 0, -57/4⟩ ⟨-55/4, 0, -57/4⟩).head? =
        some (cellToWorld (worldCell ⟨-57/4, 0, -57/4⟩))) :=
  ⟨of_decide_eq_true (by with_unfolding_all rfl),
   of_decide_eq_true (by with_unfolding_all rfl),
   of_decide_eq_true (by with_unfolding_all rfl),
   start_unwalkable_path gridU ⟨-57/4, 0, -57/4⟩ ⟨-55/4, 0, -57/4⟩
     (of_decide_eq_true (by with_unfolding_all rfl))
     (of_decide_eq_true (by with_unfolding_all rfl))
     (of_decide_eq_true (by with_unfolding_all rfl))
     reachU⟩

/-! ## Lemmas: scene transitions and the action log -/

/-- Re-entering the transition routine with `recordUndo = false` never
pushes an undo action. -/
theorem switchToScene_false_undoStack (w : SMState) (n : String) (now : ℤ) :
    (switchToScene w n false now).undoStack = w.undoStack := by
  unfold switchToScene
  by_cases hmem : n ∈ w.scenes
  · simp only [hmem, if_pos]
    cases w.currentSceneName with
    | none => rfl
    | some prev => simp
  · simp [hmem]

/-- Claim C3: after recording actions A, B, C on an empty action log, three
successive `undo()` calls invoke the reversal procedures in order C, B, A,
each exactly once, each returning `true`; a fourth `undo()` on the
now-empty stack returns `false`, invokes no reversal procedure, and leaves
the stack unchanged. -/
theorem undo_lifo_order (σ : Type) (st : σ) (fA fB fC : σ → σ)
    (fromA toA : String) (ppA : Option PosRec) (oidB : String)
    (invB : List InventoryItem) (oposB : PosRec) (fromC toC : PosRec)
    (n1 n2 n3 : ℤ) :
    (let s0 : UndoSystem σ := ⟨[]⟩
     let sA := recordSceneTransition s0 fromA toA fA ppA n1
     let sB := recordObjectInteraction sA oidB invB oposB fB n2
     let sC := recordPlayerMovement sB fromC toC fC n3
     let u1 := sC.undo st
     let u2 := u1.2.1.undo u1.2.2
     let u3 := u2.2.1.undo u2.2.2
     let u4 := u3.2.1.undo u3.2.2
     u1.1 = true ∧ u1.2.2 = fC st ∧
     u2.1 = true ∧ u2.2.2 = fB (fC st) ∧
     u3.1 = true ∧ u3.2.2 = fA (fB (fC st)) ∧ u3.2.1.actionStack = [] ∧
     u4.1 = false ∧ u4.2.2 = fA (fB (fC st)) ∧ u4.2.1.actionStack = []) := by
  simp [recordSceneTransition, recordObjectInteraction, recordPlayerMovement,
    UndoSystem.undo]

/-- Claim C5: in the `Game.ts` wiring, where every recorded action is a
scene transition whose reversal re-enters `switchToScene` with the
record-undo flag `false`, a successful `undo()` never pushes a new action:
the stack size strictly decreases by exactly one. -/
theorem scene_undo_no_recurse (w : SMState) (now : ℤ)
    (h : w.undoStack ≠ []) :
    (undoSceneWorld w now).1 = true ∧
    (undoSceneWorld w now).2.undoStack.length + 1 = w.undoStack.length := by
  obtain ⟨sc, cur, stack, pos, hu, hp, pr⟩ := w
  rcases stack.eq_nil_or_concat' with rfl | ⟨l, a, rfl⟩
  · exact absurd rfl h
  constructor
  · simp [undoSceneWorld]
  · have hstack :
        (undoSceneWorld ⟨sc, cur, l ++ [a], pos, hu, hp, pr⟩ now).2.undoStack = l := by
      simp only [undoSceneWorld, List.getLast?_concat, List.dropLast_concat]
      split
      · simp [switchToScene_false_undoStack]
      · simp [switchToScene_false_undoStack]
    simp [hstack]

/-- Witness for `scene_undo_no_recurse` at a concrete one-action world. -/
theorem scene_undo_no_recurse_witness :
    (let w : SMState := ⟨["room", "puzzle"], some "puzzle",
        [⟨0, "room", "puzzle", none⟩], none, true, true, ["room"]⟩
     (undoSceneWorld w 5).1 = true ∧
     (undoSceneWorld w 5).2.undoStack.length + 1 = w.undoStack.length) :=
  scene_undo_no_recurse _ 5 (by decide)

/-- Claim C6: `clear()` empties the stack without invoking any reversal
procedure, a subsequent `undo()` reports `false` with no side effect, and
`Game.loadGameState` leaves the undo stack empty (it clears it and only
re-enters `switchToScene` with `recordUndo = false`). -/
theorem clear_discards (σ : Type) (s : UndoSystem σ) (st : σ)
    (w : GameWorld) (data : SaveData) (now : ℤ) :
    (s.clear).actionStack = [] ∧
    (s.clear).undo st = (false, s.clear, st) ∧
    (loadGameState w data now).sm.undoStack = [] := by
  refine ⟨rfl, rfl, ?_⟩
  unfold loadGameState
  simp only []
  split <;> simp [switchToScene_false_undoStack]

/-- Counterexample for claim C7: the persisted record's wire-format keys
are not the ones the spec names; `slotLabel` and `removedObjectIds` do not
occur (the source uses `slotName` and `interactableObjectsRemoved`). -/
theorem save_keys_not_spec :
    saveDataKeys ≠ specSaveRecordKeys ∧
    "slotLabel" ∉ saveDataKeys ∧ "removedObjectIds" ∉ saveDataKeys ∧
    "slotName" ∈ saveDataKeys ∧ "interactableObjectsRemoved" ∈ saveDataKeys := by
  decide

/-- Claim C7 (amended): every save record round-trips through the wire
format with field names and nesting preserved exactly, the top-level names
being `timestamp`, `slotName`, `inventory`, `gameProgress`, `playerState`
and `interactableObjectsRemoved`. -/
theorem save_record_roundtrip (d : SaveData) :
    (toWire d).map Prod.fst = saveDataKeys ∧ fromWire (toWire d) = some d :=
  ⟨rfl, rfl⟩

/-- Counterexample for claim C9: when the new request yields no usable path
(here: the goal cell is blocked, so `findPath` returns `[]`), the in-flight
waypoint queue is kept, not discarded. -/
theorem path_replace_counterexample :
    handleMoveClick initializeGrid ⟨0, 0, 0⟩ ⟨1, 0, 1⟩ [⟨9, 9, 9⟩] = [⟨9, 9, 9⟩] ∧
    findPath initializeGrid ⟨0, 0, 0⟩ ⟨1, 0, 1⟩ = [] ∧
    ([(⟨9, 9, 9⟩ : Vec3)] : List Vec3) ≠ [] :=
  of_decide_eq_true (by with_unfolding_all rfl)

/-- Claim C9 (amended): a click-to-move request replaces the agent's
waypoint queue wholesale (no blending) exactly when the newly computed path
is non-empty; when the new request yields no usable path the in-flight
queue is left unchanged. -/
theorem path_replace (gr : Grid) (p q : Vec3) (old : List Vec3) :
    (findPath gr p q ≠ [] → handleMoveClick gr p q old = findPath gr p q) ∧
    (findPath gr p q = [] → handleMoveClick gr p q old = old) := by
  unfold handleMoveClick
  constructor
  · intro h
    simp [List.length_pos, h]
  · intro h
    simp [h]

/-- Witness for `path_replace` on a concrete click with no usable path. -/
theorem path_replace_witness :
    handleMoveClick initializeGrid ⟨0, 0, 0⟩ ⟨1, 0, 1⟩ [⟨9, 9, 9⟩] = [⟨9, 9, 9⟩] :=
  (path_replace initializeGrid ⟨0, 0, 0⟩ ⟨1, 0, 1⟩ [⟨9, 9, 9⟩]).2
    (of_decide_eq_true (by with_unfolding_all rfl))

end Cmpm121
